import Mathlib

/-!
Verification of the core algorithms of the drone-simulation-platform
repository: the grid A* planner (`astar_planner.py`), the RRT / RRT*
samplers and their point validators (`rrt_planner.py`,
`rrt_star_planner.py`), the planner wrapper dispatch
(`path_planner_wrapper.py`), the tour solver (`tsp_utils.py`) and the
trajectory synthesizer (`simulation_controller.py`).

The Python sources are embedded shallowly: machine floats are modelled as
real (or rational) numbers, stateful loops as fuel-indexed functions,
exceptions as `Except` values, and calls into external libraries
(pyproj/geopy geodesy, networkx) as oracle parameters whose documented
contracts are stated as hypotheses.
-/

namespace DroneSim

/-- A grid cell index `(row, col)` as used by the planners. -/
abbrev Pos : Type := ℤ × ℤ

/-- Shallow embedding of the occupancy/elevation arrays handed to
`AStarPlanner.__init__` (`grid`, `elevation`).  `occ r c` is the
occupancy value stored at row `r`, column `c`; `elev` is the optional
elevation field (`None` when absent). -/
structure Grid where
  rows : ℕ
  cols : ℕ
  occ : ℤ → ℤ → ℤ
  elev : Option (ℤ → ℤ → ℝ)

/-- The eight neighbor offsets listed in
`AStarPlanner.find_path.get_neighbors`. -/
def directions : List Pos :=
  [(0, 1), (0, -1), (1, 0), (-1, 0), (1, 1), (1, -1), (-1, 1), (-1, -1)]

/-- `np.linalg.norm([dx, dy])`: the Euclidean length of an offset. -/
noncomputable def baseCost (d : Pos) : ℝ :=
  Real.sqrt ((d.1 : ℝ) ^ 2 + (d.2 : ℝ) ^ 2)

/-- The in-bounds test `0 <= nx < grid.shape[0] and 0 <= ny < grid.shape[1]`. -/
def inB (G : Grid) (p : Pos) : Prop :=
  0 ≤ p.1 ∧ p.1 < (G.rows : ℤ) ∧ 0 ≤ p.2 ∧ p.2 < (G.cols : ℤ)

/-- A cell `get_neighbors` may step onto: in bounds and holding occupancy
value `0` (`self.grid[nx, ny] == 0`). -/
def freeCell (G : Grid) (p : Pos) : Prop := inB G p ∧ G.occ p.1 p.2 = 0

instance (G : Grid) (p : Pos) : Decidable (inB G p) := by
  unfold inB; infer_instance

instance (G : Grid) (p : Pos) : Decidable (freeCell G p) := by
  unfold freeCell; infer_instance

/-- The elevation surcharge
`elevation_penalty * abs(elev_neighbor - elev_current)` (zero when no
elevation field is attached). -/
noncomputable def elevCost (G : Grid) (pen : ℝ) (p q : Pos) : ℝ :=
  match G.elev with
  | none => 0
  | some e => pen * |e q.1 q.2 - e p.1 p.2|

/-- The total cost `find_path` charges for the move `p → q`
(`cost = base_cost + elev_cost`). -/
noncomputable def edgeCost (G : Grid) (pen : ℝ) (p q : Pos) : ℝ :=
  baseCost (q.1 - p.1, q.2 - p.2) + elevCost G pen p q

/-- The neighbor generator `get_neighbors(pos)`: every offset whose
destination is in bounds and unoccupied, paired with its base cost. -/
noncomputable def nbrs (G : Grid) (p : Pos) : List (Pos × ℝ) :=
  directions.filterMap fun d =>
    if freeCell G (p.1 + d.1, p.2 + d.2)
    then some ((p.1 + d.1, p.2 + d.2), baseCost d) else none

/-- The heuristic `np.linalg.norm(goal_np - neighbor_np)`. -/
noncomputable def heur (goal p : Pos) : ℝ :=
  Real.sqrt (((goal.1 - p.1 : ℤ) : ℝ) ^ 2 + ((goal.2 - p.2 : ℤ) : ℝ) ^ 2)

/-- A single legal move of the A* search: `q` is reached from `p` by one
of the eight offsets and is an in-bounds, unoccupied cell. -/
def ValidStep (G : Grid) (p q : Pos) : Prop :=
  (q.1 - p.1, q.2 - p.2) ∈ directions ∧ freeCell G q

/-- Total cost of a node sequence under the `find_path` edge costs. -/
noncomputable def pathCost (G : Grid) (pen : ℝ) : List Pos → ℝ
  | [] => 0
  | [_] => 0
  | a :: b :: l => edgeCost G pen a b + pathCost G pen (b :: l)

/-- A path answering the query `start → goal`: nonempty, starting at
`start`, ending at `goal`, every consecutive pair a legal A* move. -/
def PathFrom (G : Grid) (start goal : Pos) (l : List Pos) : Prop :=
  l.head? = some start ∧ l.getLast? = some goal ∧ l.Chain' (ValidStep G)

/-- A heap entry `(f_score, node)` of the `open_set`. -/
abbrev Ent : Type := WithTop ℝ × Pos

/-- Python's tuple comparison, which `heapq` uses to order entries. -/
def entLe (a b : Ent) : Prop :=
  a.1 < b.1 ∨ (a.1 = b.1 ∧ (a.2.1 < b.2.1 ∨ (a.2.1 = b.2.1 ∧ a.2.2 ≤ b.2.2)))

noncomputable instance (a b : Ent) : Decidable (entLe a b) := by
  unfold entLe; infer_instance

/-- The smaller of two heap entries. -/
noncomputable def minEnt (a b : Ent) : Ent := if entLe b a then b else a

/-- The minimum of a nonempty entry list. -/
noncomputable def findMin (e : Ent) (l : List Ent) : Ent := l.foldl minEnt e

/-- `heappop`: remove and return the least entry of the heap. -/
noncomputable def popMin : List Ent → Option (Ent × List Ent)
  | [] => none
  | e :: es => some (findMin e es, (e :: es).erase (findMin e es))

/-- The mutable state of one `find_path` call: the open heap, the
`came_from` parent map, the `g_score` table (`⊤` standing for the
`defaultdict` value `inf`) and the `visited` closed set. -/
structure AState where
  openL : List Ent
  cf : Pos → Option Pos
  g : Pos → WithTop ℝ
  vis : Pos → Bool

/-- The state built at the top of `find_path`: heap `[(0, start)]`,
empty `came_from`, `g_score[start] = 0`, empty `visited`. -/
def initSt (start : Pos) : AState where
  openL := [((0 : WithTop ℝ), start)]
  cf := fun _ => none
  g := fun p => if p = start then 0 else ⊤
  vis := fun _ => false

/-- One pass of the neighbor loop body for a single neighbor
`nc = (neighbor, base_cost)`: skip closed neighbors, otherwise relax the
edge and push the improved entry. -/
noncomputable def relaxOne (G : Grid) (pen : ℝ) (goal current : Pos)
    (st : AState) (nc : Pos × ℝ) : AState :=
  if st.vis nc.1 then st
  else if st.g current + ↑(nc.2 + elevCost G pen current nc.1) < st.g nc.1 then
    { openL := (st.g current + ↑(nc.2 + elevCost G pen current nc.1)
        + ↑(heur goal nc.1), nc.1) :: st.openL
      cf := fun p => if p = nc.1 then some current else st.cf p
      g := fun p => if p = nc.1
        then st.g current + ↑(nc.2 + elevCost G pen current nc.1) else st.g p
      vis := st.vis }
  else st

/-- The reconstruction walk
`while current in came_from: path.append(current); current = came_from[current]`,
fuel-indexed because with a cyclic parent map the Python loop never
terminates (`none` models that divergence). -/
def walkBack (cf : Pos → Option Pos) : ℕ → Pos → Option (List Pos)
  | 0, _ => none
  | fuel + 1, cur =>
    match cf cur with
    | none => some []
    | some p => (walkBack cf fuel p).map (cur :: ·)

/-- The `while open_set:` loop of `find_path`.  The outer `Option` is the
fuel/divergence layer; the inner `Option (List Pos)` is the Python result
(`None` = no path). -/
noncomputable def loopA (G : Grid) (pen : ℝ) (start goal : Pos) :
    ℕ → AState → Option (Option (List Pos))
  | 0, _ => none
  | fuel + 1, st =>
    match popMin st.openL with
    | none => some none
    | some (e, rest) =>
      if e.2 = goal then
        match walkBack st.cf (G.rows * G.cols + 2) goal with
        | none => none
        | some l => some (some ((l ++ [start]).reverse))
      else
        loopA G pen start goal fuel
          ((nbrs G e.2).foldl (relaxOne G pen goal e.2)
            { st with openL := rest
                      vis := fun p => if p = e.2 then true else st.vis p })

/-- `AStarPlanner.find_path(start, goal)`: the `start == goal` shortcut,
then the search loop on the initial state. -/
noncomputable def find_path (G : Grid) (pen : ℝ) (start goal : Pos)
    (fuel : ℕ) : Option (Option (List Pos)) :=
  if start = goal then some (some [start])
  else loopA G pen start goal fuel (initSt start)

/-! ### Order facts about heap entries -/

theorem entLe_refl (a : Ent) : entLe a a := Or.inr ⟨rfl, Or.inr ⟨rfl, le_rfl⟩⟩

theorem entLe_total (a b : Ent) : entLe a b ∨ entLe b a := by
  unfold entLe
  rcases lt_trichotomy a.1 b.1 with h | h | h
  · exact Or.inl (Or.inl h)
  · rcases lt_trichotomy a.2.1 b.2.1 with h2 | h2 | h2
    · exact Or.inl (Or.inr ⟨h, Or.inl h2⟩)
    · rcases le_total a.2.2 b.2.2 with h3 | h3
      · exact Or.inl (Or.inr ⟨h, Or.inr ⟨h2, h3⟩⟩)
      · exact Or.inr (Or.inr ⟨h.symm, Or.inr ⟨h2.symm, h3⟩⟩)
    · exact Or.inr (Or.inr ⟨h.symm, Or.inl h2⟩)
  · exact Or.inr (Or.inl h)

theorem entLe_trans {a b c : Ent} (hab : entLe a b) (hbc : entLe b c) :
    entLe a c := by
  unfold entLe at *
  rcases hab with h1 | ⟨e1, h1⟩
  · rcases hbc with h2 | ⟨e2, _⟩
    · exact Or.inl (h1.trans h2)
    · exact Or.inl (e2 ▸ h1)
  · rcases hbc with h2 | ⟨e2, h2⟩
    · exact Or.inl (e1 ▸ h2)
    · refine Or.inr ⟨e1.trans e2, ?_⟩
      rcases h1 with h1 | ⟨f1, h1⟩
      · rcases h2 with h2 | ⟨f2, _⟩
        · exact Or.inl (h1.trans h2)
        · exact Or.inl (f2 ▸ h1)
      · rcases h2 with h2 | ⟨f2, h2⟩
        · exact Or.inl (f1 ▸ h2)
        · exact Or.inr ⟨f1.trans f2, h1.trans h2⟩

theorem entLe_fst {a b : Ent} (h : entLe a b) : a.1 ≤ b.1 := by
  rcases h with h | ⟨h, -⟩
  · exact h.le
  · exact h.le

theorem minEnt_cases (a b : Ent) : minEnt a b = a ∨ minEnt a b = b := by
  unfold minEnt; split
  · exact Or.inr rfl
  · exact Or.inl rfl

theorem minEnt_le_left (a b : Ent) : entLe (minEnt a b) a := by
  unfold minEnt; split
  · assumption
  · exact entLe_refl a

theorem minEnt_le_right (a b : Ent) : entLe (minEnt a b) b := by
  unfold minEnt; split
  · exact entLe_refl b
  · next h => exact (entLe_total a b).resolve_right h

theorem findMin_cons (e x : Ent) (xs : List Ent) :
    findMin e (x :: xs) = findMin (minEnt e x) xs := rfl

theorem findMin_mem (e : Ent) (l : List Ent) : findMin e l ∈ e :: l := by
  induction l generalizing e with
  | nil => simp [findMin]
  | cons x xs ih =>
    rw [findMin_cons]
    have h := ih (minEnt e x)
    rcases List.mem_cons.mp h with h | h
    · rcases minEnt_cases e x with hc | hc
      · rw [h, hc]; exact List.mem_cons_self _ _
      · rw [h, hc]; exact List.mem_cons_of_mem _ (List.mem_cons_self _ _)
    · exact List.mem_cons_of_mem _ (List.mem_cons_of_mem _ h)

theorem findMin_le (e : Ent) (l : List Ent) :
    ∀ x ∈ e :: l, entLe (findMin e l) x := by
  induction l generalizing e with
  | nil =>
    intro x hx
    rcases List.mem_cons.mp hx with rfl | hx
    · exact entLe_refl _
    · simp at hx
  | cons y ys ih =>
    intro x hx
    rw [findMin_cons]
    have hmin := ih (minEnt e y)
    have hle : entLe (findMin (minEnt e y) ys) (minEnt e y) :=
      hmin _ (List.mem_cons_self _ _)
    rcases List.mem_cons.mp hx with rfl | hx
    · exact entLe_trans hle (minEnt_le_left _ _)
    · rcases List.mem_cons.mp hx with rfl | hx
      · exact entLe_trans hle (minEnt_le_right _ _)
      · exact hmin _ (List.mem_cons_of_mem _ hx)

theorem popMin_spec {l : List Ent} {e : Ent} {rest : List Ent}
    (h : popMin l = some (e, rest)) :
    e ∈ l ∧ rest = l.erase e ∧ ∀ x ∈ l, entLe e x := by
  cases l with
  | nil => simp [popMin] at h
  | cons a as =>
    simp only [popMin, Option.some.injEq, Prod.mk.injEq] at h
    obtain ⟨he, hr⟩ := h
    subst he
    exact ⟨findMin_mem a as, hr.symm, findMin_le a as⟩

theorem popMin_none {l : List Ent} (h : popMin l = none) : l = [] := by
  cases l with
  | nil => rfl
  | cons a as => simp [popMin] at h

/-! ### Geometry of the base cost and the heuristic -/

/-- The plane point of a grid cell, used to relate the Python
`np.linalg.norm` expressions to the Euclidean metric. -/
noncomputable def emb (p : Pos) : ℂ := ⟨(p.1 : ℝ), (p.2 : ℝ)⟩

theorem dist_emb (p q : Pos) :
    dist (emb p) (emb q) = Real.sqrt (((p.1 : ℝ) - q.1) ^ 2 + ((p.2 : ℝ) - q.2) ^ 2) := by
  rw [Complex.dist_eq, Complex.abs_apply, Complex.normSq_apply]
  congr 1
  simp only [emb, Complex.sub_re, Complex.sub_im]
  ring

theorem heur_eq (goal p : Pos) : heur goal p = dist (emb p) (emb goal) := by
  rw [dist_emb]; unfold heur; congr 1; push_cast; ring

theorem baseCost_eq (p q : Pos) :
    baseCost (q.1 - p.1, q.2 - p.2) = dist (emb p) (emb q) := by
  rw [dist_emb]; unfold baseCost; congr 1; push_cast; ring

theorem baseCost_nonneg (d : Pos) : 0 ≤ baseCost d := Real.sqrt_nonneg _

theorem heur_nonneg (goal p : Pos) : 0 ≤ heur goal p := Real.sqrt_nonneg _

theorem elevCost_nonneg (G : Grid) {pen : ℝ} (hpen : 0 ≤ pen) (p q : Pos) :
    0 ≤ elevCost G pen p q := by
  unfold elevCost
  cases G.elev with
  | none => simp
  | some e => exact mul_nonneg hpen (abs_nonneg _)

theorem edgeCost_nonneg (G : Grid) {pen : ℝ} (hpen : 0 ≤ pen) (p q : Pos) :
    0 ≤ edgeCost G pen p q :=
  add_nonneg (baseCost_nonneg _) (elevCost_nonneg G hpen p q)

theorem dist_le_edgeCost (G : Grid) {pen : ℝ} (hpen : 0 ≤ pen) (p q : Pos) :
    dist (emb p) (emb q) ≤ edgeCost G pen p q := by
  unfold edgeCost
  rw [baseCost_eq]
  linarith [elevCost_nonneg G hpen p q]

/-- One-step consistency of the heuristic: moving to any cell pays at
least the drop in the heuristic. -/
theorem heur_consistent (G : Grid) {pen : ℝ} (hpen : 0 ≤ pen)
    (goal a b : Pos) : heur goal a ≤ edgeCost G pen a b + heur goal b := by
  rw [heur_eq, heur_eq]
  calc dist (emb a) (emb goal) ≤ dist (emb a) (emb b) + dist (emb b) (emb goal) :=
        dist_triangle _ _ _
    _ ≤ edgeCost G pen a b + dist (emb b) (emb goal) := by
        linarith [dist_le_edgeCost G hpen a b]

theorem pathCost_nonneg (G : Grid) {pen : ℝ} (hpen : 0 ≤ pen) :
    ∀ l : List Pos, 0 ≤ pathCost G pen l := by
  intro l
  induction l with
  | nil => simp [pathCost]
  | cons a l ih =>
    cases l with
    | nil => simp [pathCost]
    | cons b m =>
      have := edgeCost_nonneg G hpen a b
      simp only [pathCost] at ih ⊢
      linarith

theorem heur_telescope (G : Grid) {pen : ℝ} (hpen : 0 ≤ pen) (goal : Pos) :
    ∀ (l : List Pos) (a z : Pos), (a :: l).getLast? = some z →
      heur goal a ≤ pathCost G pen (a :: l) + heur goal z := by
  intro l
  induction l with
  | nil =>
    intro a z h
    simp only [List.getLast?_singleton, Option.some.injEq] at h
    subst h
    simp [pathCost]
  | cons b l ih =>
    intro a z h
    rw [List.getLast?_cons_cons] at h
    have hb := ih b z h
    have tri := heur_consistent G hpen goal a b
    have : pathCost G pen (a :: b :: l) = edgeCost G pen a b + pathCost G pen (b :: l) := rfl
    linarith

/-! ### The neighbor generator and legal paths -/

theorem nbrs_mem {G : Grid} {p q : Pos} {c : ℝ} :
    (q, c) ∈ nbrs G p ↔ ValidStep G p q ∧ c = baseCost (q.1 - p.1, q.2 - p.2) := by
  unfold nbrs ValidStep
  rw [List.mem_filterMap]
  constructor
  · rintro ⟨d, hd, h⟩
    by_cases hf : freeCell G (p.1 + d.1, p.2 + d.2)
    · rw [if_pos hf] at h
      injection h with h2
      have hq : q = (p.1 + d.1, p.2 + d.2) := (congrArg Prod.fst h2).symm
      have hc : c = baseCost d := (congrArg Prod.snd h2).symm
      have hdd : (q.1 - p.1, q.2 - p.2) = d := by
        rw [hq]; simp
      refine ⟨⟨?_, ?_⟩, ?_⟩
      · rw [hdd]; exact hd
      · rw [hq]; exact hf
      · rw [hdd, hc]
    · rw [if_neg hf] at h
      simp at h
  · rintro ⟨⟨hdir, hfree⟩, rfl⟩
    refine ⟨(q.1 - p.1, q.2 - p.2), hdir, ?_⟩
    have hq : (p.1 + (q.1 - p.1), p.2 + (q.2 - p.2)) = q := by
      obtain ⟨q1, q2⟩ := q
      simp only [Prod.mk.injEq]
      omega
    rw [hq, if_pos hfree]

theorem validStep_ne {G : Grid} {p q : Pos} (h : ValidStep G p q) : p ≠ q := by
  rintro rfl
  have h0 : ((0 : ℤ), (0 : ℤ)) ∈ directions := by
    have h1 := h.1
    simp only [sub_self] at h1
    exact h1
  exact absurd h0 (by decide)

/-- `edgeCost` is exactly the base cost plus the elevation surcharge the
relaxation computes for a generated neighbor. -/
theorem edgeCost_of_nbrs {G : Grid} (pen : ℝ) {p q : Pos} {c : ℝ}
    (h : (q, c) ∈ nbrs G p) :
    c + elevCost G pen p q = edgeCost G pen p q := by
  obtain ⟨-, rfl⟩ := nbrs_mem.mp h
  rfl

theorem pathCost_append_last (G : Grid) (pen : ℝ) :
    ∀ (l : List Pos) (a b : Pos), l.getLast? = some a →
      pathCost G pen (l ++ [b]) = pathCost G pen l + edgeCost G pen a b := by
  intro l
  induction l with
  | nil => intro a b h; simp at h
  | cons x xs ih =>
    intro a b h
    cases xs with
    | nil =>
      simp only [List.getLast?_singleton, Option.some.injEq] at h
      subst h
      simp [pathCost]
    | cons y ys =>
      rw [List.getLast?_cons_cons] at h
      have hih := ih a b h
      simp only [List.cons_append] at hih ⊢
      show edgeCost G pen x y + pathCost G pen (y :: (ys ++ [b])) = _
      rw [hih]
      show _ = edgeCost G pen x y + pathCost G pen (y :: ys) + edgeCost G pen a b
      ring

/-! ### Structural invariants of the A* loop state -/

/-- Invariants of the search state that hold for every configuration
(also for negative elevation penalties): heap nodes other than `start`
have a finite `g_score`; every `came_from` edge is a legal move whose
recorded relaxation still bounds the child's `g_score`; cells without a
parent are unreached or are the start. -/
structure InvB (G : Grid) (pen : ℝ) (start : Pos) (st : AState) : Prop where
  open_fin : ∀ e ∈ st.openL, e.2 = start ∨ st.g e.2 ≠ ⊤
  cf_edge : ∀ p q : Pos, st.cf p = some q →
    ValidStep G q p ∧ st.g q ≠ ⊤ ∧ st.g q + ↑(edgeCost G pen q p) ≤ st.g p
  cf_none : ∀ p : Pos, st.cf p = none → st.g p = ⊤ ∨ p = start

theorem invB_init (G : Grid) (pen : ℝ) (start : Pos) :
    InvB G pen start (initSt start) := by
  constructor
  · intro e he
    simp only [initSt, List.mem_singleton] at he
    subst he
    exact Or.inl rfl
  · intro p q hpq
    simp [initSt] at hpq
  · intro p _
    by_cases hp : p = start
    · exact Or.inr hp
    · exact Or.inl (by simp [initSt, hp])

theorem relaxOne_eq_vis {G : Grid} {pen : ℝ} {goal current : Pos}
    {st : AState} {nc : Pos × ℝ} (hvis : st.vis nc.1 = true) :
    relaxOne G pen goal current st nc = st := by
  unfold relaxOne
  rw [if_pos hvis]

theorem relaxOne_eq_update {G : Grid} {pen : ℝ} {goal current : Pos}
    {st : AState} {nc : Pos × ℝ} (hvis : ¬ st.vis nc.1 = true)
    (hlt : st.g current + ↑(nc.2 + elevCost G pen current nc.1) < st.g nc.1) :
    relaxOne G pen goal current st nc =
      { openL := (st.g current + ↑(nc.2 + elevCost G pen current nc.1)
          + ↑(heur goal nc.1), nc.1) :: st.openL
        cf := fun p => if p = nc.1 then some current else st.cf p
        g := fun p => if p = nc.1
          then st.g current + ↑(nc.2 + elevCost G pen current nc.1) else st.g p
        vis := st.vis } := by
  unfold relaxOne
  rw [if_neg hvis, if_pos hlt]

theorem relaxOne_eq_noimp {G : Grid} {pen : ℝ} {goal current : Pos}
    {st : AState} {nc : Pos × ℝ} (hvis : ¬ st.vis nc.1 = true)
    (hlt : ¬ st.g current + ↑(nc.2 + elevCost G pen current nc.1) < st.g nc.1) :
    relaxOne G pen goal current st nc = st := by
  unfold relaxOne
  rw [if_neg hvis, if_neg hlt]

theorem relaxOne_invB {G : Grid} {pen : ℝ} {start goal current : Pos}
    {st : AState} {nc : Pos × ℝ} (hnc : nc ∈ nbrs G current)
    (h : InvB G pen start st) :
    InvB G pen start (relaxOne G pen goal current st nc) := by
  by_cases hvis : st.vis nc.1
  · rw [relaxOne_eq_vis hvis]; exact h
  · by_cases hlt : st.g current + ↑(nc.2 + elevCost G pen current nc.1) < st.g nc.1
    · rw [relaxOne_eq_update hvis hlt]
      have hstep : ValidStep G current nc.1 := (nbrs_mem.mp hnc).1
      have hne : current ≠ nc.1 := validStep_ne hstep
      have htne : st.g current + ↑(nc.2 + elevCost G pen current nc.1) ≠ ⊤ :=
        (lt_of_lt_of_le hlt le_top).ne
      have hgcur : st.g current ≠ ⊤ := by
        intro hx
        apply htne
        rw [hx, top_add]
      constructor
      · intro e he
        rcases List.mem_cons.mp he with rfl | he
        · refine Or.inr ?_
          show ¬ (if nc.1 = nc.1 then _ else _) = ⊤
          rw [if_pos rfl]
          exact htne
        · rcases h.open_fin e he with h1 | h1
          · exact Or.inl h1
          · refine Or.inr ?_
            show ¬ (if e.2 = nc.1 then _ else _) = ⊤
            by_cases hx : e.2 = nc.1
            · rw [if_pos hx]; exact htne
            · rw [if_neg hx]; exact h1
      · intro p q hpq
        dsimp only at hpq ⊢
        by_cases hp : p = nc.1
        · rw [if_pos hp, Option.some.injEq] at hpq
          subst hpq
          subst hp
          refine ⟨hstep, ?_, ?_⟩
          · rw [if_neg hne]; exact hgcur
          · rw [if_neg hne, if_pos rfl, ← edgeCost_of_nbrs pen hnc]
        · rw [if_neg hp] at hpq
          obtain ⟨hv, hq, hle⟩ := h.cf_edge p q hpq
          refine ⟨hv, ?_, ?_⟩
          · by_cases hx : q = nc.1
            · rw [if_pos hx]; exact htne
            · rw [if_neg hx]; exact hq
          · have hqle : (if q = nc.1
                then st.g current + ↑(nc.2 + elevCost G pen current nc.1)
                else st.g q) ≤ st.g q := by
              by_cases hx : q = nc.1
              · rw [if_pos hx, hx] at *
                exact hlt.le
              · rw [if_neg hx]
            rw [if_neg hp]
            calc (if q = nc.1
                  then st.g current + ↑(nc.2 + elevCost G pen current nc.1)
                  else st.g q) + ↑(edgeCost G pen q p)
                ≤ st.g q + ↑(edgeCost G pen q p) := add_le_add_right hqle _
              _ ≤ st.g p := hle
      · intro p hpq
        dsimp only at hpq ⊢
        by_cases hp : p = nc.1
        · rw [if_pos hp] at hpq
          exact absurd hpq (by simp)
        · rw [if_neg hp] at hpq ⊢
          exact h.cf_none p hpq
    · rw [relaxOne_eq_noimp hvis hlt]
      exact h

theorem foldl_relax_invB {G : Grid} {pen : ℝ} {start goal current : Pos} :
    ∀ (ns : List (Pos × ℝ)) (st : AState), (∀ nc ∈ ns, nc ∈ nbrs G current) →
      InvB G pen start st →
      InvB G pen start (ns.foldl (relaxOne G pen goal current) st) := by
  intro ns
  induction ns with
  | nil => intro st _ h; exact h
  | cons nc ns ih =>
    intro st hns h
    simp only [List.foldl_cons]
    exact ih _ (fun x hx => hns x (List.mem_cons_of_mem _ hx))
      (relaxOne_invB (hns nc (List.mem_cons_self _ _)) h)

theorem invB_pop {G : Grid} {pen : ℝ} {start : Pos} {st : AState}
    {e : Ent} {rest : List Ent} (hpop : popMin st.openL = some (e, rest))
    (h : InvB G pen start st) :
    InvB G pen start
      { st with openL := rest, vis := fun p => if p = e.2 then true else st.vis p } := by
  obtain ⟨-, hrest, -⟩ := popMin_spec hpop
  constructor
  · intro x hx
    have hx' : x ∈ st.openL.erase e := by
      rw [← hrest]; exact hx
    exact h.open_fin x (List.erase_subset _ _ hx')
  · exact h.cf_edge
  · exact h.cf_none

/-! ### The reconstruction walk -/

theorem recon_eq (start : Pos) (l : List Pos) :
    (l ++ [start]).reverse = start :: l.reverse := by
  simp

theorem walkBack_path {G : Grid} {pen : ℝ} {start : Pos} {st : AState}
    (h : InvB G pen start st) :
    ∀ (fuel : ℕ) (p : Pos) (l : List Pos), walkBack st.cf fuel p = some l →
      st.g p ≠ ⊤ →
      (start :: l.reverse).getLast? = some p ∧
      (start :: l.reverse).Chain' (ValidStep G) := by
  intro fuel
  induction fuel with
  | zero => intro p l hw; simp [walkBack] at hw
  | succ fuel ih =>
    intro p l hw hg
    unfold walkBack at hw
    cases hcf : st.cf p with
    | none =>
      rw [hcf] at hw
      simp only [Option.some.injEq] at hw
      subst hw
      have hp : p = start := (h.cf_none p hcf).resolve_left (by exact hg)
      subst hp
      exact ⟨rfl, List.chain'_singleton _⟩
    | some q =>
      rw [hcf] at hw
      obtain ⟨l', hl', rfl⟩ := Option.map_eq_some'.mp hw
      obtain ⟨hstep, hqfin, -⟩ := h.cf_edge p q hcf
      obtain ⟨hlast, hchain⟩ := ih q l' hl' hqfin
      have hrw : start :: (p :: l').reverse = (start :: l'.reverse) ++ [p] := by
        simp
      rw [hrw]
      constructor
      · exact List.getLast?_concat _
      · rw [List.chain'_append]
        refine ⟨hchain, List.chain'_singleton _, ?_⟩
        intro x hx y hy
        rw [hlast] at hx
        have hx' : q = x := by simpa using hx
        have hy' : p = y := by simpa using hy
        subst hx'; subst hy'
        exact hstep

theorem walkBack_cost {G : Grid} {pen : ℝ} {start : Pos} {st : AState}
    (h : InvB G pen start st) (hg0 : st.g start = 0) :
    ∀ (fuel : ℕ) (p : Pos) (l : List Pos), walkBack st.cf fuel p = some l →
      st.g p ≠ ⊤ →
      ↑(pathCost G pen (start :: l.reverse)) ≤ st.g p := by
  intro fuel
  induction fuel with
  | zero => intro p l hw; simp [walkBack] at hw
  | succ fuel ih =>
    intro p l hw hg
    unfold walkBack at hw
    cases hcf : st.cf p with
    | none =>
      rw [hcf] at hw
      simp only [Option.some.injEq] at hw
      subst hw
      have hp : p = start := (h.cf_none p hcf).resolve_left (by exact hg)
      subst hp
      rw [hg0]
      simp [pathCost]
    | some q =>
      rw [hcf] at hw
      obtain ⟨l', hl', rfl⟩ := Option.map_eq_some'.mp hw
      obtain ⟨-, hqfin, hqle⟩ := h.cf_edge p q hcf
      have hih := ih q l' hl' hqfin
      obtain ⟨hlast, -⟩ := walkBack_path h fuel q l' hl' hqfin
      have hrw : start :: (p :: l').reverse = (start :: l'.reverse) ++ [p] := by
        simp
      rw [hrw, pathCost_append_last G pen _ q p hlast]
      calc (↑(pathCost G pen (start :: l'.reverse) + edgeCost G pen q p) : WithTop ℝ)
          = ↑(pathCost G pen (start :: l'.reverse)) + ↑(edgeCost G pen q p) := by
            rw [WithTop.coe_add]
        _ ≤ st.g q + ↑(edgeCost G pen q p) := add_le_add_right hih _
        _ ≤ st.g p := hqle

/-! ### The structural soundness of the search loop -/

theorem loopA_path {G : Grid} {pen : ℝ} {start goal : Pos}
    (hsg : start ≠ goal) :
    ∀ (fuel : ℕ) (st : AState) (p : List Pos), InvB G pen start st →
      loopA G pen start goal fuel st = some (some p) →
      PathFrom G start goal p := by
  intro fuel
  induction fuel with
  | zero => intro st p _ h; simp [loopA] at h
  | succ fuel ih =>
    intro st p hinv h
    unfold loopA at h
    split at h
    · simp at h
    · rename_i er e rest hpop
      split at h
      · rename_i hgoal
        split at h
        · simp at h
        · rename_i l hwb
          simp only [Option.some.injEq] at h
          subst h
          have hgfin : st.g goal ≠ ⊤ := by
            obtain ⟨hmem, -, -⟩ := popMin_spec hpop
            rcases hinv.open_fin e hmem with h1 | h1
            · exact absurd (hgoal ▸ h1) (Ne.symm hsg)
            · rwa [hgoal] at h1
          obtain ⟨hlast, hchain⟩ :=
            walkBack_path hinv (G.rows * G.cols + 2) goal l hwb hgfin
          rw [recon_eq]
          exact ⟨rfl, hlast, hchain⟩
      · rename_i hgoal
        exact ih _ p
          (foldl_relax_invB _ _ (fun nc hx => hx) (invB_pop hpop hinv)) h

/-- Soundness of `find_path` results: any returned path runs from the
query start to the query goal along legal 8-connected moves. -/
theorem find_path_path {G : Grid} {pen : ℝ} {start goal : Pos} {fuel : ℕ}
    {p : List Pos} (h : find_path G pen start goal fuel = some (some p)) :
    PathFrom G start goal p := by
  unfold find_path at h
  by_cases hsg : start = goal
  · rw [if_pos hsg] at h
    simp only [Option.some.injEq] at h
    subst h
    subst hsg
    exact ⟨rfl, rfl, List.chain'_singleton _⟩
  · rw [if_neg hsg] at h
    exact loopA_path hsg fuel _ p (invB_init G pen start) h

/-! ### Optimality invariants (non-negative elevation penalty) -/

theorem wt_coe_nonneg {c : ℝ} (h : 0 ≤ c) : (0 : WithTop ℝ) ≤ (c : WithTop ℝ) := by
  rw [← WithTop.coe_zero]
  exact WithTop.coe_le_coe.mpr h

theorem head?_append_some {α : Type} {l : List α} {a b : α}
    (h : l.head? = some a) : (l ++ [b]).head? = some a := by
  cases l with
  | nil => simp at h
  | cons x xs => simpa using h

theorem relaxOne_vis_eq (G : Grid) (pen : ℝ) (goal current : Pos)
    (st : AState) (nc : Pos × ℝ) :
    (relaxOne G pen goal current st nc).vis = st.vis := by
  unfold relaxOne
  split
  · rfl
  · split <;> rfl

theorem foldl_relax_vis_eq (G : Grid) (pen : ℝ) (goal current : Pos) :
    ∀ (ns : List (Pos × ℝ)) (st : AState),
      (ns.foldl (relaxOne G pen goal current) st).vis = st.vis := by
  intro ns
  induction ns with
  | nil => intro st; rfl
  | cons nc ns ih =>
    intro st
    simp only [List.foldl_cons]
    rw [ih, relaxOne_vis_eq]

theorem relaxOne_g_le (G : Grid) (pen : ℝ) (goal current : Pos)
    (st : AState) (nc : Pos × ℝ) (p : Pos) :
    (relaxOne G pen goal current st nc).g p ≤ st.g p := by
  by_cases hvis : st.vis nc.1
  · rw [relaxOne_eq_vis hvis]
  · by_cases hlt : st.g current + ↑(nc.2 + elevCost G pen current nc.1) < st.g nc.1
    · rw [relaxOne_eq_update hvis hlt]
      dsimp only
      by_cases hp : p = nc.1
      · rw [if_pos hp, hp]
        exact hlt.le
      · rw [if_neg hp]
    · rw [relaxOne_eq_noimp hvis hlt]

theorem foldl_relax_g_le (G : Grid) (pen : ℝ) (goal current : Pos) :
    ∀ (ns : List (Pos × ℝ)) (st : AState) (p : Pos),
      (ns.foldl (relaxOne G pen goal current) st).g p ≤ st.g p := by
  intro ns
  induction ns with
  | nil => intro st p; exact le_rfl
  | cons nc ns ih =>
    intro st p
    simp only [List.foldl_cons]
    exact le_trans (ih _ p) (relaxOne_g_le G pen goal current st nc p)

theorem relaxOne_g_vis {G : Grid} {pen : ℝ} {goal current : Pos}
    {st : AState} {nc : Pos × ℝ} {p : Pos} (hp : st.vis p = true) :
    (relaxOne G pen goal current st nc).g p = st.g p := by
  by_cases hvis : st.vis nc.1
  · rw [relaxOne_eq_vis hvis]
  · by_cases hlt : st.g current + ↑(nc.2 + elevCost G pen current nc.1) < st.g nc.1
    · rw [relaxOne_eq_update hvis hlt]
      dsimp only
      have hne : p ≠ nc.1 := by
        intro hx
        rw [hx] at hp
        exact hvis hp
      rw [if_neg hne]
    · rw [relaxOne_eq_noimp hvis hlt]

theorem foldl_relax_g_vis {G : Grid} {pen : ℝ} {goal current : Pos} :
    ∀ {ns : List (Pos × ℝ)} {st : AState} {p : Pos}, st.vis p = true →
      (ns.foldl (relaxOne G pen goal current) st).g p = st.g p := by
  intro ns
  induction ns with
  | nil => intro st p _; rfl
  | cons nc ns ih =>
    intro st p hp
    simp only [List.foldl_cons]
    rw [ih (by rw [relaxOne_vis_eq]; exact hp), relaxOne_g_vis hp]

/-- The optimality invariants of the loop state for `0 ≤ elevation_penalty`:
`g_score[start]` stays `0`, `g_score`s are non-negative, every heap entry
dominates the `f`-value of its node (except the seed entry `(0, start)`),
no entry is infinite, every unexpanded reached node keeps a current
entry, and every closed node's `g_score` lower-bounds the cost of every
legal path from the start to it. -/
structure InvO (G : Grid) (pen : ℝ) (start goal : Pos) (st : AState) : Prop where
  g_start : st.g start = 0
  g_nonneg : ∀ p : Pos, 0 ≤ st.g p
  open_lb : ∀ e ∈ st.openL,
    e = ((0 : WithTop ℝ), start) ∨ st.g e.2 + ↑(heur goal e.2) ≤ e.1
  open_ne_top : ∀ e ∈ st.openL, e.1 ≠ ⊤
  open_cover : ∀ p : Pos, st.vis p = false → st.g p ≠ ⊤ →
    ∃ e ∈ st.openL, e.2 = p ∧ e.1 ≤ st.g p + ↑(heur goal p)
  vis_opt : ∀ x : Pos, st.vis x = true → ∀ l : List Pos,
    PathFrom G start x l → st.g x ≤ ↑(pathCost G pen l)

/-- All edges out of every closed node have been relaxed. -/
def RelaxDone (G : Grid) (pen : ℝ) (st : AState) : Prop :=
  ∀ x : Pos, st.vis x = true → ∀ nc ∈ nbrs G x, st.vis nc.1 = false →
    st.g nc.1 ≤ st.g x + ↑(nc.2 + elevCost G pen x nc.1)

/-- All edges out of every closed node except (possibly) `cur` have been
relaxed — the state in the middle of expanding `cur`. -/
def RelaxDoneX (G : Grid) (pen : ℝ) (cur : Pos) (st : AState) : Prop :=
  ∀ x : Pos, st.vis x = true → x ≠ cur → ∀ nc ∈ nbrs G x, st.vis nc.1 = false →
    st.g nc.1 ≤ st.g x + ↑(nc.2 + elevCost G pen x nc.1)

theorem invO_init (G : Grid) (pen : ℝ) (start goal : Pos) :
    InvO G pen start goal (initSt start) := by
  constructor
  · simp [initSt]
  · intro p
    by_cases hp : p = start
    · simp [initSt, hp]
    · simp only [initSt, if_neg hp]
      exact le_top
  · intro e he
    simp only [initSt, List.mem_singleton] at he
    exact Or.inl he
  · intro e he
    simp only [initSt, List.mem_singleton] at he
    subst he
    simp
  · intro p _ hfin
    by_cases hp : p = start
    · subst hp
      refine ⟨((0 : WithTop ℝ), p), by simp [initSt], rfl, ?_⟩
      have h0 : (initSt p).g p = 0 := by simp [initSt]
      rw [h0, zero_add]
      exact wt_coe_nonneg (heur_nonneg _ _)
    · exact absurd (by simp [initSt, hp]) hfin
  · intro x hx
    simp [initSt] at hx

theorem relaxDone_init (G : Grid) (pen : ℝ) (start : Pos) :
    RelaxDone G pen (initSt start) := by
  intro x hx
  simp [initSt] at hx

theorem relaxOne_invO {G : Grid} {pen : ℝ} {start goal current : Pos}
    {st : AState} {nc : Pos × ℝ} (hpen : 0 ≤ pen) (hnc : nc ∈ nbrs G current)
    (h : InvO G pen start goal st) :
    InvO G pen start goal (relaxOne G pen goal current st nc) := by
  by_cases hvis : st.vis nc.1
  · rw [relaxOne_eq_vis hvis]; exact h
  · by_cases hlt : st.g current + ↑(nc.2 + elevCost G pen current nc.1) < st.g nc.1
    · have hcnn : (0 : ℝ) ≤ nc.2 + elevCost G pen current nc.1 := by
        have := (nbrs_mem.mp hnc).2
        have hb : 0 ≤ nc.2 := this ▸ baseCost_nonneg _
        exact add_nonneg hb (elevCost_nonneg G hpen _ _)
      have htnn : (0 : WithTop ℝ) ≤ st.g current + ↑(nc.2 + elevCost G pen current nc.1) :=
        add_nonneg (h.g_nonneg current) (wt_coe_nonneg hcnn)
      have htne : st.g current + ↑(nc.2 + elevCost G pen current nc.1) ≠ ⊤ :=
        (lt_of_lt_of_le hlt le_top).ne
      have hsne : start ≠ nc.1 := by
        intro hx
        have h0 : st.g nc.1 = 0 := by rw [← hx, h.g_start]
        rw [h0] at hlt
        exact absurd hlt (not_lt.mpr htnn)
      rw [relaxOne_eq_update hvis hlt]
      constructor
      · dsimp only
        rw [if_neg (fun hx => hsne hx)]
        exact h.g_start
      · intro p
        dsimp only
        by_cases hp : p = nc.1
        · rw [if_pos hp]; exact htnn
        · rw [if_neg hp]; exact h.g_nonneg p
      · intro e he
        rcases List.mem_cons.mp he with rfl | he
        · refine Or.inr ?_
          dsimp only
          rw [if_pos rfl]
        · rcases h.open_lb e he with h1 | h1
          · exact Or.inl h1
          · refine Or.inr ?_
            dsimp only
            by_cases hx : e.2 = nc.1
            · rw [if_pos hx]
              refine le_trans (add_le_add_right ?_ ((↑(heur goal e.2) : WithTop ℝ))) h1
              rw [hx]
              exact hlt.le
            · rw [if_neg hx]
              exact h1
      · intro e he
        rcases List.mem_cons.mp he with rfl | he
        · dsimp only
          rw [WithTop.add_ne_top]
          exact ⟨htne, WithTop.coe_ne_top⟩
        · exact h.open_ne_top e he
      · intro p hvp hfin
        dsimp only at hvp hfin ⊢
        by_cases hp : p = nc.1
        · subst hp
          refine ⟨(st.g current + ↑(nc.2 + elevCost G pen current nc.1)
            + ↑(heur goal nc.1), nc.1), List.mem_cons_self _ _, rfl, ?_⟩
          dsimp only
          rw [if_pos rfl]
        · rw [if_neg hp] at hfin
          obtain ⟨e, hel, he2, hele⟩ := h.open_cover p hvp hfin
          refine ⟨e, List.mem_cons_of_mem _ hel, he2, ?_⟩
          rw [if_neg hp]
          exact hele
      · intro x hx l hl
        dsimp only
        have hne : x ≠ nc.1 := by
          intro hx'
          rw [hx'] at hx
          exact hvis hx
        rw [if_neg hne]
        exact h.vis_opt x hx l hl
    · rw [relaxOne_eq_noimp hvis hlt]; exact h

theorem relaxOne_relaxDoneX {G : Grid} {pen : ℝ} {goal cur : Pos}
    {st : AState} {nc : Pos × ℝ}
    (h : RelaxDoneX G pen cur st) :
    RelaxDoneX G pen cur (relaxOne G pen goal cur st nc) := by
  intro x hx hxc mc hmc hmcv
  rw [relaxOne_vis_eq] at hx hmcv
  have hgx : (relaxOne G pen goal cur st nc).g x = st.g x := relaxOne_g_vis hx
  rw [hgx]
  exact le_trans (relaxOne_g_le G pen goal cur st nc mc.1) (h x hx hxc mc hmc hmcv)

theorem foldl_relaxDoneX {G : Grid} {pen : ℝ} {goal cur : Pos} :
    ∀ {ns : List (Pos × ℝ)} {st : AState}, RelaxDoneX G pen cur st →
      RelaxDoneX G pen cur (ns.foldl (relaxOne G pen goal cur) st) := by
  intro ns
  induction ns with
  | nil => intro st h; exact h
  | cons nc ns ih =>
    intro st h
    simp only [List.foldl_cons]
    exact ih (relaxOne_relaxDoneX h)

theorem foldl_relax_invO {G : Grid} {pen : ℝ} {start goal current : Pos}
    (hpen : 0 ≤ pen) :
    ∀ (ns : List (Pos × ℝ)) (st : AState), (∀ nc ∈ ns, nc ∈ nbrs G current) →
      InvO G pen start goal st →
      InvO G pen start goal (ns.foldl (relaxOne G pen goal current) st) := by
  intro ns
  induction ns with
  | nil => intro st _ h; exact h
  | cons nc ns ih =>
    intro st hns h
    simp only [List.foldl_cons]
    exact ih _ (fun x hx => hns x (List.mem_cons_of_mem _ hx))
      (relaxOne_invO hpen (hns nc (List.mem_cons_self _ _)) h)

theorem wt_le_coe {a : WithTop ℝ} {c : ℝ} (h : a ≤ (c : WithTop ℝ)) :
    ∃ r : ℝ, a = ↑r ∧ r ≤ c := by
  have hne : a ≠ ⊤ := (lt_of_le_of_lt h (WithTop.coe_lt_top c)).ne
  obtain ⟨r, hr⟩ := WithTop.ne_top_iff_exists.mp hne
  refine ⟨r, hr.symm, ?_⟩
  rw [← hr] at h
  exact WithTop.coe_le_coe.mp h

/-- Following a legal path from a closed node to an unexpanded node, some
node on the way is unexpanded with a bounded `f`-potential. -/
theorem aux_cross {G : Grid} {pen : ℝ} {start goal : Pos} {st : AState}
    (hpen : 0 ≤ pen) (hO : InvO G pen start goal st)
    (hR : RelaxDone G pen st) :
    ∀ (m : List Pos) (x z : Pos) (l0 : List Pos),
      st.vis x = true → PathFrom G start x l0 →
      List.Chain' (ValidStep G) (x :: m) → (x :: m).getLast? = some z →
      st.vis z = false →
      ∃ y, st.vis y = false ∧
        st.g y + ↑(heur goal y) ≤
          ↑(pathCost G pen l0 + pathCost G pen (x :: m) + heur goal z) := by
  intro m
  induction m with
  | nil =>
    intro x z l0 hx _ _ hlast hz
    simp only [List.getLast?_singleton, Option.some.injEq] at hlast
    subst hlast
    simp [hx] at hz
  | cons b m ih =>
    intro x z l0 hx hl0 hchain hlast hz
    have hstep : ValidStep G x b := (List.chain'_cons.mp hchain).1
    have hchain' : List.Chain' (ValidStep G) (b :: m) :=
      (List.chain'_cons.mp hchain).2
    rw [List.getLast?_cons_cons] at hlast
    obtain ⟨hh0, hl0last, hc0⟩ := hl0
    have hl0b : PathFrom G start b (l0 ++ [b]) := by
      refine ⟨head?_append_some hh0, List.getLast?_concat _, ?_⟩
      rw [List.chain'_append]
      refine ⟨hc0, List.chain'_singleton _, ?_⟩
      intro u hu v hv
      rw [hl0last] at hu
      have hu' : x = u := by simpa using hu
      have hv' : b = v := by simpa using hv
      subst hu'; subst hv'
      exact hstep
    have hcost0 : pathCost G pen (l0 ++ [b]) = pathCost G pen l0 + edgeCost G pen x b :=
      pathCost_append_last G pen l0 x b hl0last
    by_cases hb : st.vis b = true
    · obtain ⟨y, hy, hle⟩ := ih b z (l0 ++ [b]) hb hl0b hchain' hlast hz
      refine ⟨y, hy, ?_⟩
      have hre : pathCost G pen (l0 ++ [b]) + pathCost G pen (b :: m) + heur goal z
          = pathCost G pen l0 + pathCost G pen (x :: b :: m) + heur goal z := by
        rw [hcost0]
        have hpc : pathCost G pen (x :: b :: m)
            = edgeCost G pen x b + pathCost G pen (b :: m) := rfl
        rw [hpc]; ring
      rw [← hre]
      exact hle
    · have hbf : st.vis b = false := by simpa using hb
      have hnb : (b, baseCost (b.1 - x.1, b.2 - x.2)) ∈ nbrs G x :=
        nbrs_mem.mpr ⟨hstep, rfl⟩
      have h1 := hR x hx _ hnb hbf
      have h2 := hO.vis_opt x hx l0 ⟨hh0, hl0last, hc0⟩
      have h3 := heur_telescope G hpen goal m b z hlast
      have hce : baseCost (b.1 - x.1, b.2 - x.2) + elevCost G pen x b
          = edgeCost G pen x b := rfl
      obtain ⟨gx, hgx, hgxle⟩ := wt_le_coe h2
      have h1' : st.g b ≤ ↑(gx + edgeCost G pen x b) := by
        rw [hgx] at h1
        calc st.g b
            ≤ ↑gx + ↑(baseCost (b.1 - x.1, b.2 - x.2) + elevCost G pen x b) := h1
          _ = ↑(gx + edgeCost G pen x b) := by rw [hce, ← WithTop.coe_add]
      obtain ⟨gb, hgb, hgble⟩ := wt_le_coe h1'
      refine ⟨b, hbf, ?_⟩
      rw [hgb, ← WithTop.coe_add, WithTop.coe_le_coe]
      have hpc : pathCost G pen (x :: b :: m)
          = edgeCost G pen x b + pathCost G pen (b :: m) := rfl
      rw [hpc]
      linarith

/-- Crossing lemma at the start: along any legal path from `start` to an
unexpanded node, some unexpanded node has `f`-potential at most the path
cost plus the target heuristic. -/
theorem cover_cross {G : Grid} {pen : ℝ} {start goal : Pos} {st : AState}
    (hpen : 0 ≤ pen) (hO : InvO G pen start goal st)
    (hR : RelaxDone G pen st) :
    ∀ (l : List Pos) (z : Pos), PathFrom G start z l → st.vis z = false →
      ∃ y, st.vis y = false ∧
        st.g y + ↑(heur goal y) ≤ ↑(pathCost G pen l + heur goal z) := by
  intro l z hl hz
  obtain ⟨hh, hlast, hchain⟩ := hl
  cases l with
  | nil => simp at hh
  | cons a m =>
    have ha : a = start := by simpa using hh
    by_cases hs : st.vis start = true
    · obtain ⟨y, hy, hyle⟩ := aux_cross hpen hO hR m start z [start] hs
        ⟨rfl, rfl, List.chain'_singleton _⟩ (ha ▸ hchain) (ha ▸ hlast) hz
      refine ⟨y, hy, ?_⟩
      rw [ha]
      have h0 : pathCost G pen [start] = 0 := rfl
      rw [h0, zero_add] at hyle
      exact hyle
    · refine ⟨start, by simpa using hs, ?_⟩
      rw [ha, hO.g_start, zero_add]
      exact WithTop.coe_le_coe.mpr (heur_telescope G hpen goal m start z (ha ▸ hlast))

/-- When an entry is popped from the heap, the `g_score` of its node
already lower-bounds the cost of every legal path from the start to it. -/
theorem pop_opt {G : Grid} {pen : ℝ} {start goal : Pos} {st : AState}
    {e : Ent} {rest : List Ent} (hpen : 0 ≤ pen)
    (hO : InvO G pen start goal st) (hR : RelaxDone G pen st)
    (hpop : popMin st.openL = some (e, rest)) :
    ∀ l, PathFrom G start e.2 l → st.g e.2 ≤ ↑(pathCost G pen l) := by
  intro l hl
  by_cases hvis : st.vis e.2 = true
  · exact hO.vis_opt _ hvis l hl
  · by_cases hes : e.2 = start
    · rw [hes, hO.g_start]
      exact wt_coe_nonneg (pathCost_nonneg G hpen l)
    · obtain ⟨hmem, -, hmin⟩ := popMin_spec hpop
      obtain ⟨y, hy, hyle⟩ := cover_cross hpen hO hR l e.2 hl (by simpa using hvis)
      have hyfin : st.g y ≠ ⊤ := by
        intro hx
        rw [hx, top_add] at hyle
        exact absurd hyle (by simp)
      obtain ⟨ey, heyl, hey2, heyle⟩ := hO.open_cover y hy hyfin
      have h6 : e.1 ≤ ey.1 := entLe_fst (hmin ey heyl)
      rcases hO.open_lb e hmem with h7 | h7
      · exact absurd (congrArg Prod.snd h7) hes
      · have hchain : st.g e.2 + ↑(heur goal e.2)
            ≤ ↑(pathCost G pen l + heur goal e.2) := by
          calc st.g e.2 + ↑(heur goal e.2) ≤ e.1 := h7
            _ ≤ ey.1 := h6
            _ ≤ st.g y + ↑(heur goal y) := heyle
            _ ≤ _ := hyle
        have hfin : st.g e.2 ≠ ⊤ := by
          intro hx
          rw [hx, top_add] at hchain
          exact absurd hchain (by simp)
        obtain ⟨gc, hgc⟩ := WithTop.ne_top_iff_exists.mp hfin
        rw [← hgc] at hchain ⊢
        rw [← WithTop.coe_add, WithTop.coe_le_coe] at hchain
        rw [WithTop.coe_le_coe]
        linarith

theorem invO_pop {G : Grid} {pen : ℝ} {start goal : Pos} {st : AState}
    {e : Ent} {rest : List Ent} (hpen : 0 ≤ pen)
    (hO : InvO G pen start goal st) (hR : RelaxDone G pen st)
    (hpop : popMin st.openL = some (e, rest)) :
    InvO G pen start goal
      { st with openL := rest, vis := fun p => if p = e.2 then true else st.vis p } ∧
    RelaxDoneX G pen e.2
      { st with openL := rest, vis := fun p => if p = e.2 then true else st.vis p } := by
  obtain ⟨hmem, hrest, hmin⟩ := popMin_spec hpop
  have hsub : ∀ x : Ent, x ∈ st.openL.erase e → x ∈ st.openL :=
    fun x hx => List.erase_subset _ _ hx
  constructor
  · constructor
    · exact hO.g_start
    · exact hO.g_nonneg
    · intro x hx
      exact hO.open_lb x (hsub x (by rw [← hrest]; exact hx))
    · intro x hx
      exact hO.open_ne_top x (hsub x (by rw [← hrest]; exact hx))
    · intro p hvp hfin
      dsimp only at hvp
      by_cases hp : p = e.2
      · rw [if_pos hp] at hvp
        simp at hvp
      · rw [if_neg hp] at hvp
        obtain ⟨ep, hepl, hep2, heple⟩ := hO.open_cover p hvp hfin
        refine ⟨ep, ?_, hep2, heple⟩
        have hne : ep ≠ e := by
          intro hx
          apply hp
          rw [← hep2, hx]
        show ep ∈ rest
        rw [hrest]
        exact (List.mem_erase_of_ne hne).mpr hepl
    · intro x hx l hl
      dsimp only at hx
      by_cases hxe : x = e.2
      · subst hxe
        exact pop_opt hpen hO hR hpop l hl
      · rw [if_neg hxe] at hx
        exact hO.vis_opt x hx l hl
  · intro x hx hxc mc hmc hmcv
    dsimp only at hx hmcv
    rw [if_neg hxc] at hx
    have hmcv' : st.vis mc.1 = false := by
      by_cases h1 : mc.1 = e.2
      · rw [if_pos h1] at hmcv
        simp at hmcv
      · rwa [if_neg h1] at hmcv
    exact hR x hx mc hmc hmcv'

/-- After folding the neighbor relaxation over the whole neighbor list of
the closed node `cur`, every still-unexpanded neighbor satisfies the
relaxation inequality. -/
theorem foldl_relax_post {G : Grid} {pen : ℝ} {goal cur : Pos} :
    ∀ (ns : List (Pos × ℝ)) (st : AState), st.vis cur = true →
      ∀ nc ∈ ns,
        (ns.foldl (relaxOne G pen goal cur) st).vis nc.1 = false →
        (ns.foldl (relaxOne G pen goal cur) st).g nc.1 ≤
          (ns.foldl (relaxOne G pen goal cur) st).g cur
            + ↑(nc.2 + elevCost G pen cur nc.1) := by
  intro ns
  induction ns with
  | nil => intro st _ nc hnc; simp at hnc
  | cons nc0 ns ih =>
    intro st hvc nc hnc hv
    simp only [List.foldl_cons] at hv ⊢
    have hvc1 : (relaxOne G pen goal cur st nc0).vis cur = true := by
      rw [relaxOne_vis_eq]; exact hvc
    rcases List.mem_cons.mp hnc with rfl | hnc'
    · have hgcur : (ns.foldl (relaxOne G pen goal cur) (relaxOne G pen goal cur st nc)).g cur
          = st.g cur := by
        rw [foldl_relax_g_vis hvc1, relaxOne_g_vis hvc]
      have hvisn : ¬ st.vis nc.1 = true := by
        intro hvisn
        rw [foldl_relax_vis_eq, relaxOne_vis_eq, hvisn] at hv
        simp at hv
      have hstep : (relaxOne G pen goal cur st nc).g nc.1
          ≤ st.g cur + ↑(nc.2 + elevCost G pen cur nc.1) := by
        by_cases hlt : st.g cur + ↑(nc.2 + elevCost G pen cur nc.1) < st.g nc.1
        · rw [relaxOne_eq_update hvisn hlt]
          dsimp only
          rw [if_pos rfl]
        · rw [relaxOne_eq_noimp hvisn hlt]
          exact not_lt.mp hlt
      calc (ns.foldl (relaxOne G pen goal cur) (relaxOne G pen goal cur st nc)).g nc.1
          ≤ (relaxOne G pen goal cur st nc).g nc.1 := foldl_relax_g_le G pen goal cur ns _ nc.1
        _ ≤ st.g cur + ↑(nc.2 + elevCost G pen cur nc.1) := hstep
        _ = (ns.foldl (relaxOne G pen goal cur) (relaxOne G pen goal cur st nc)).g cur
            + ↑(nc.2 + elevCost G pen cur nc.1) := by rw [hgcur]
    · exact ih (relaxOne G pen goal cur st nc0) hvc1 nc hnc' hv

/-- Optimality of the search loop: under the optimality invariants, a
returned path costs no more than any legal path from start to goal. -/
theorem loopA_opt {G : Grid} {pen : ℝ} {start goal : Pos}
    (hpen : 0 ≤ pen) (hsg : start ≠ goal) :
    ∀ (fuel : ℕ) (st : AState) (p : List Pos),
      InvB G pen start st → InvO G pen start goal st → RelaxDone G pen st →
      loopA G pen start goal fuel st = some (some p) →
      ∀ l, PathFrom G start goal l → pathCost G pen p ≤ pathCost G pen l := by
  intro fuel
  induction fuel with
  | zero => intro st p _ _ _ h; simp [loopA] at h
  | succ fuel ih =>
    intro st p hB hO hR h
    unfold loopA at h
    split at h
    · simp at h
    · rename_i er e rest hpop
      split at h
      · rename_i hgoal
        split at h
        · simp at h
        · rename_i lw hwb
          simp only [Option.some.injEq] at h
          subst h
          intro l hl
          have hgfin : st.g goal ≠ ⊤ := by
            obtain ⟨hmem, -, -⟩ := popMin_spec hpop
            rcases hB.open_fin e hmem with h1 | h1
            · exact absurd (hgoal ▸ h1) (Ne.symm hsg)
            · rwa [hgoal] at h1
          have hcost := walkBack_cost hB hO.g_start (G.rows * G.cols + 2)
            goal lw hwb hgfin
          have hopt := pop_opt hpen hO hR hpop
          rw [hgoal] at hopt
          have h1 := hopt l hl
          have h2 : (↑(pathCost G pen ((lw ++ [start]).reverse)) : WithTop ℝ)
              ≤ ↑(pathCost G pen l) := by
            rw [recon_eq]
            exact le_trans hcost h1
          exact WithTop.coe_le_coe.mp h2
      · rename_i hgoal
        obtain ⟨hO1, hRX1⟩ := invO_pop hpen hO hR hpop
        have hB1 := invB_pop hpop hB
        refine ih _ p (foldl_relax_invB _ _ (fun nc hx => hx) hB1)
          (foldl_relax_invO hpen _ _ (fun nc hx => hx) hO1) ?_ h
        intro x hx nc hnc hncv
        by_cases hxe : x = e.2
        · subst hxe
          refine foldl_relax_post _ _ ?_ nc hnc hncv
          dsimp only
          rw [if_pos rfl]
        · exact foldl_relaxDoneX hRX1 x hx hxe nc hnc hncv

/-- Optimality of `find_path` results. -/
theorem find_path_opt {G : Grid} {pen : ℝ} {start goal : Pos} {fuel : ℕ}
    {p : List Pos} (hpen : 0 ≤ pen)
    (h : find_path G pen start goal fuel = some (some p)) :
    ∀ l, PathFrom G start goal l → pathCost G pen p ≤ pathCost G pen l := by
  unfold find_path at h
  by_cases hsg : start = goal
  · rw [if_pos hsg] at h
    simp only [Option.some.injEq] at h
    subst h
    intro l hl
    have h0 : pathCost G pen [start] = 0 := rfl
    rw [h0]
    exact pathCost_nonneg G hpen l
  · rw [if_neg hsg] at h
    exact loopA_opt hpen hsg fuel _ p (invB_init G pen start)
      (invO_init G pen start goal) (relaxDone_init G pen start) h

/-! ### Claims C2 and C5 -/

/-- C2: for every grid, every start and goal, and every non-negative
`elevation_penalty`, any path returned by `AStarPlanner.find_path` is a
legal 8-connected obstacle-free path from start to goal with minimal
total cost among all such paths, where each edge costs the Euclidean
length of its offset plus `elevation_penalty` times the absolute
elevation difference when an elevation field is present; in particular,
for grids with no elevation field the returned path is cost-optimal by
Euclidean-weighted edge length. -/
theorem C2_astar_returns_cost_optimal_path (G : Grid) (pen : ℝ)
    (start goal : Pos) (fuel : ℕ) (p : List Pos) (hpen : 0 ≤ pen)
    (h : find_path G pen start goal fuel = some (some p)) :
    PathFrom G start goal p ∧
      ∀ l, PathFrom G start goal l → pathCost G pen p ≤ pathCost G pen l :=
  ⟨find_path_path h, find_path_opt hpen h⟩

/-- Witness for C2 at a concrete instance (1×1 free grid, start = goal):
the hypotheses are satisfied and the theorem applies. -/
theorem C2_astar_returns_cost_optimal_path_witness :
    (0 : ℝ) ≤ 1 ∧
    find_path ⟨1, 1, fun _ _ => 0, none⟩ 1 ((0 : ℤ), (0 : ℤ)) (0, 0) 1
      = some (some [(0, 0)]) ∧
    (PathFrom ⟨1, 1, fun _ _ => 0, none⟩ (0, 0) (0, 0) [(0, 0)] ∧
      ∀ l, PathFrom ⟨1, 1, fun _ _ => 0, none⟩ (0, 0) (0, 0) l →
        pathCost ⟨1, 1, fun _ _ => 0, none⟩ 1 [(0, 0)]
          ≤ pathCost ⟨1, 1, fun _ _ => 0, none⟩ 1 l) := by
  have hret : find_path ⟨1, 1, fun _ _ => 0, none⟩ 1 ((0 : ℤ), (0 : ℤ)) (0, 0) 1
      = some (some [(0, 0)]) := by
    unfold find_path
    rw [if_pos rfl]
  exact ⟨by norm_num, hret,
    C2_astar_returns_cost_optimal_path _ _ _ _ _ _ (by norm_num) hret⟩

/-- C5: every non-absent path returned by `AStarPlanner.find_path`
begins with the query start, ends with the query goal, contains no
duplicate consecutive points, and each consecutive pair of path points
differs by an 8-connected offset whose destination cell is in-bounds and
unoccupied. -/
theorem C5_astar_path_endpoints_and_moves (G : Grid) (pen : ℝ)
    (start goal : Pos) (fuel : ℕ) (p : List Pos)
    (h : find_path G pen start goal fuel = some (some p)) :
    p.head? = some start ∧ p.getLast? = some goal ∧
      p.Chain' (ValidStep G) ∧ p.Chain' (· ≠ ·) := by
  obtain ⟨h1, h2, h3⟩ := find_path_path h
  exact ⟨h1, h2, h3, List.Chain'.imp (fun a b hab => validStep_ne hab) h3⟩

/-- Witness for C5 at a concrete instance (2×3 grid, start = goal, even a
negative penalty): the hypothesis is satisfied and the theorem applies. -/
theorem C5_astar_path_endpoints_and_moves_witness :
    find_path ⟨2, 3, fun _ _ => 0, none⟩ (-5) ((1 : ℤ), (2 : ℤ)) (1, 2) 3
      = some (some [(1, 2)]) ∧
    ([((1 : ℤ), (2 : ℤ))].head? = some (1, 2) ∧
      [((1 : ℤ), (2 : ℤ))].getLast? = some (1, 2) ∧
      [((1 : ℤ), (2 : ℤ))].Chain' (ValidStep ⟨2, 3, fun _ _ => 0, none⟩) ∧
      [((1 : ℤ), (2 : ℤ))].Chain' (· ≠ ·)) := by
  have hret : find_path ⟨2, 3, fun _ _ => 0, none⟩ (-5) ((1 : ℤ), (2 : ℤ)) (1, 2) 3
      = some (some [(1, 2)]) := by
    unfold find_path
    rw [if_pos rfl]
  exact ⟨hret, C5_astar_path_endpoints_and_moves _ _ _ _ _ _ hret⟩

/-! ### RRT and RRT* (`rrt_planner.py`, `rrt_star_planner.py`)

Sampled points are machine floats, modelled as real numbers.  `int(x)`
is Python's truncation toward zero. -/

/-- Python `int(x)` on a float: truncation toward zero. -/
noncomputable def pyInt (x : ℝ) : ℤ := if 0 ≤ x then ⌊x⌋ else -⌊-x⌋

theorem pyInt_zero : pyInt 0 = 0 := by
  unfold pyInt
  rw [if_pos le_rfl]
  exact Int.floor_zero

/-- `RRT.is_collision_free(point)`: the bounds test followed by
`self.map[int(x), int(y)] == 0` (0 = free, anything else = obstacle). -/
noncomputable def is_collision_free (G : Grid) (x y : ℝ) : Bool :=
  if x < 0 ∨ (G.rows : ℝ) ≤ x ∨ y < 0 ∨ (G.cols : ℝ) ≤ y then false
  else decide (G.occ (pyInt x) (pyInt y) = 0)

/-- `RRT.steer(nearest, sampled)`: move from `nearest` toward `sampled`
by at most `step_size`; when the sampled point is at distance at most
`step_size` (in particular at distance zero) it is returned unchanged. -/
noncomputable def steer (step_size : ℝ) (nearest sampled : ℝ × ℝ) : ℝ × ℝ :=
  if Real.sqrt ((sampled.1 - nearest.1) ^ 2 + (sampled.2 - nearest.2) ^ 2) ≤ step_size
  then sampled
  else
    (nearest.1 + (sampled.1 - nearest.1)
        / Real.sqrt ((sampled.1 - nearest.1) ^ 2 + (sampled.2 - nearest.2) ^ 2)
        * step_size,
      nearest.2 + (sampled.2 - nearest.2)
        / Real.sqrt ((sampled.1 - nearest.1) ^ 2 + (sampled.2 - nearest.2) ^ 2)
        * step_size)

/-- The hard-coded world bounds of `RRTStar.__init__`. -/
def world_x_min : ℝ := -2.16

def world_x_max : ℝ := 2.42

def world_y_min : ℝ := -4.07

def world_y_max : ℝ := 1.78

/-- `RRTStar.world2map(xw, yw)`: scale into pixel coordinates and clamp
into bounds; returns `(px, py)`. -/
noncomputable def world2map (G : Grid) (xw yw : ℝ) : ℤ × ℤ :=
  (min (max (pyInt ((xw - world_x_min) / (world_x_max - world_x_min)
      * ((G.cols : ℝ) - 1))) 0) ((G.cols : ℤ) - 1),
    min (max (pyInt ((world_y_max - yw) / (world_y_max - world_y_min)
      * ((G.rows : ℝ) - 1))) 0) ((G.rows : ℤ) - 1))

/-- `RRTStar.is_valid_point(point)` (the live code up to its first
`return True`; the edge check after it is unreachable): converts to map
coordinates, requires them in bounds, and rejects the point when the map
cell holds 0 (`0 = obstacle` in this planner). -/
noncomputable def is_valid_point (G : Grid) (xw yw : ℝ) : Bool :=
  if ¬ (0 ≤ (world2map G xw yw).1 ∧ (world2map G xw yw).1 < (G.cols : ℤ) ∧
        0 ≤ (world2map G xw yw).2 ∧ (world2map G xw yw).2 < (G.rows : ℤ)) then false
  else if G.occ (world2map G xw yw).2 (world2map G xw yw).1 = 0 then false
  else true

/-- `RRTStar.generate_new_point(nearest, random_point)`: adaptive step
toward the sample, returning `nearest` outright when the direction has
length zero. -/
noncomputable def generate_new_point (G : Grid) (delta : ℝ)
    (nearest random_point : ℝ × ℝ) : ℝ × ℝ :=
  if Real.sqrt ((random_point.1 - nearest.1) ^ 2 + (random_point.2 - nearest.2) ^ 2)
      = 0
  then nearest
  else
    let length := Real.sqrt ((random_point.1 - nearest.1) ^ 2
      + (random_point.2 - nearest.2) ^ 2)
    let step_size := min delta (length * 0.7)
    let np : ℝ × ℝ := (nearest.1 + (random_point.1 - nearest.1) / length * step_size,
      nearest.2 + (random_point.2 - nearest.2) / length * step_size)
    let npm := world2map G np.1 np.2
    if is_valid_point G (npm.1 : ℝ) (npm.2 : ℝ) then np else nearest

/-! ### Claim C3 -/

theorem world2map_zero_1x1 :
    world2map ⟨1, 1, fun _ _ => 0, none⟩ 0 0 = (0, 0) := by
  unfold world2map
  norm_num [pyInt_zero]

/-- C3 counterexample: on the 1×1 grid whose only cell holds occupancy
value 0, the A* neighbor validator and `RRT.is_collision_free` treat the
cell as free, but `RRTStar.is_valid_point` rejects it — so it is false
that every planner variant interprets a 0 cell as traversable. -/
theorem C3_counterexample :
    Grid.occ ⟨1, 1, fun _ _ => 0, none⟩ 0 0 = 0 ∧
    freeCell ⟨1, 1, fun _ _ => 0, none⟩ (0, 0) ∧
    is_collision_free ⟨1, 1, fun _ _ => 0, none⟩ 0 0 = true ∧
    is_valid_point ⟨1, 1, fun _ _ => 0, none⟩ 0 0 = false := by
  refine ⟨rfl, by decide, ?_, ?_⟩
  · unfold is_collision_free
    rw [if_neg]
    · simp [pyInt_zero]
    · push_neg
      norm_num
  · unfold is_valid_point
    rw [world2map_zero_1x1]
    norm_num

/-- C3 amended: `AStarPlanner` (neighbor generation) and
`RRT.is_collision_free` interpret an occupancy cell holding 0 as
free/traversable and any nonzero value as blocked, while
`RRTStar.is_valid_point` uses the opposite convention: it accepts
exactly the points whose (clamped) map cell is in bounds and holds a
nonzero value, rejecting cells that hold 0. -/
theorem C3_occupancy_conventions (G : Grid) (p : Pos) (x y : ℝ) :
    (∀ d ∈ directions,
      (((p.1 + d.1, p.2 + d.2), baseCost d) ∈ nbrs G p ↔
        inB G (p.1 + d.1, p.2 + d.2) ∧ G.occ (p.1 + d.1) (p.2 + d.2) = 0)) ∧
    (is_collision_free G x y = true ↔
      (0 ≤ x ∧ x < (G.rows : ℝ) ∧ 0 ≤ y ∧ y < (G.cols : ℝ) ∧
        G.occ (pyInt x) (pyInt y) = 0)) ∧
    (is_valid_point G x y = true ↔
      (0 ≤ (world2map G x y).1 ∧ (world2map G x y).1 < (G.cols : ℤ) ∧
        0 ≤ (world2map G x y).2 ∧ (world2map G x y).2 < (G.rows : ℤ) ∧
        G.occ (world2map G x y).2 (world2map G x y).1 ≠ 0)) := by
  refine ⟨?_, ?_, ?_⟩
  · intro d hd
    constructor
    · intro h
      exact (nbrs_mem.mp h).1.2
    · intro hfree
      refine nbrs_mem.mpr ⟨⟨?_, hfree⟩, ?_⟩
      · have h1 : ((p.1 + d.1 - p.1, p.2 + d.2 - p.2) : Pos) = d := by
          obtain ⟨d1, d2⟩ := d
          simp only [Prod.mk.injEq]
          omega
        rw [h1]
        exact hd
      · have h1 : ((p.1 + d.1 - p.1, p.2 + d.2 - p.2) : Pos) = d := by
          obtain ⟨d1, d2⟩ := d
          simp only [Prod.mk.injEq]
          omega
        rw [h1]
  · unfold is_collision_free
    by_cases hc : x < 0 ∨ (G.rows : ℝ) ≤ x ∨ y < 0 ∨ (G.cols : ℝ) ≤ y
    · rw [if_pos hc]
      simp only [Bool.false_eq_true, false_iff]
      rintro ⟨h1, h2, h3, h4, -⟩
      rcases hc with h | h | h | h <;> linarith
    · rw [if_neg hc]
      push_neg at hc
      obtain ⟨h1, h2, h3, h4⟩ := hc
      simp only [decide_eq_true_eq]
      constructor
      · intro h
        exact ⟨h1, h2, h3, h4, h⟩
      · rintro ⟨-, -, -, -, h⟩
        exact h
  · unfold is_valid_point
    by_cases hb : 0 ≤ (world2map G x y).1 ∧ (world2map G x y).1 < (G.cols : ℤ) ∧
        0 ≤ (world2map G x y).2 ∧ (world2map G x y).2 < (G.rows : ℤ)
    · rw [if_neg (not_not.mpr hb)]
      by_cases hocc : G.occ (world2map G x y).2 (world2map G x y).1 = 0
      · rw [if_pos hocc]
        simp only [Bool.false_eq_true, false_iff]
        rintro ⟨-, -, -, -, h⟩
        exact h hocc
      · rw [if_neg hocc]
        simp only [true_iff]
        exact ⟨hb.1, hb.2.1, hb.2.2.1, hb.2.2.2, hocc⟩
    · rw [if_pos hb]
      simp only [Bool.false_eq_true, false_iff]
      rintro ⟨h1, h2, h3, h4, -⟩
      exact hb ⟨h1, h2, h3, h4⟩

/-! ### Claim C10 -/

/-- C10: a degenerate zero-length steering vector is treated as "no
movement" and never triggers the division by the distance: for a sample
equal to the nearest node `RRT.steer` returns the sample itself via the
`dist <= step_size` guard, and `RRTStar.generate_new_point` returns the
nearest node via its `length == 0` guard. -/
theorem C10_zero_length_steering (G : Grid) (delta step_size : ℝ)
    (p : ℝ × ℝ) (hs : 0 ≤ step_size) :
    steer step_size p p = p ∧ generate_new_point G delta p p = p := by
  have h0 : Real.sqrt ((p.1 - p.1) ^ 2 + (p.2 - p.2) ^ 2) = 0 := by
    simp
  constructor
  · unfold steer
    rw [h0, if_pos hs]
  · unfold generate_new_point
    rw [h0, if_pos rfl]

/-- Witness for C10 at a concrete instance. -/
theorem C10_zero_length_steering_witness :
    (0 : ℝ) ≤ 1 ∧
    (steer 1 ((2 : ℝ), (3 : ℝ)) (2, 3) = (2, 3) ∧
      generate_new_point ⟨1, 1, fun _ _ => 0, none⟩ 2 ((2 : ℝ), (3 : ℝ)) (2, 3)
        = (2, 3)) :=
  ⟨by norm_num, C10_zero_length_steering _ _ _ _ (by norm_num)⟩

/-! ### Planner wrapper dispatch (`path_planner_wrapper.py`) — claim C1

`find_segment_path` dispatches on `planner_type`.  For every non-"astar"
variant it constructs the mapped class with the keyword arguments
`start, goal, occupancy_grid, step_size, max_iter`; a Python keyword
call raises `TypeError` when a keyword does not name a parameter of the
target `__init__`.  The parameter lists below are transcribed from the
`__init__` signatures in the source. -/

/-- Parameters of `AStarPlanner.__init__`. -/
def astar_init_params : List String :=
  ["grid", "elevation", "elevation_penalty", "debug"]

/-- Parameters of `RRT.__init__` (`rrt_planner.py`). -/
def rrt_init_params : List String :=
  ["occupancy_grid", "step_size", "max_iter", "debug"]

/-- Parameters of `RRTStar.__init__` (`rrt_star_planner.py`). -/
def rrt_star_init_params : List String :=
  ["start", "goal", "map_path", "occupancy_grid", "target_radius", "delta",
    "exploration_bias", "max_nodes"]

/-- Parameters of `GeoAwareRRT.__init__`. -/
def geo_rrt_init_params : List String :=
  ["grid", "transform", "elevation", "elevation_penalty", "step_size",
    "max_iter", "debug"]

/-- Parameters of `GeoAwareRRTStar.__init__`. -/
def geo_rrt_star_init_params : List String :=
  ["occupancy_grid", "transform_func", "dem_func"]

/-- `PathPlannerWrapper.PLANNER_MAP`, with each class represented by its
constructor parameter list. -/
def PLANNER_MAP : List (String × List String) :=
  [("astar", astar_init_params), ("rrt", rrt_init_params),
    ("rrt*", rrt_star_init_params), ("geo_rrt", geo_rrt_init_params),
    ("geo_rrt*", geo_rrt_star_init_params)]

/-- The keyword arguments `find_segment_path` passes when constructing a
non-astar planner. -/
def wrapper_call_kwargs : List String :=
  ["start", "goal", "occupancy_grid", "step_size", "max_iter"]

/-- A Python keyword call binds only when every keyword names a
parameter of the callee. -/
def kwargs_accepted (params kwargs : List String) : Bool :=
  kwargs.all fun k => params.contains k

/-- The observable outcome of `PathPlannerWrapper.find_segment_path` per
`planner_type`: `astar` delegates to the preconstructed
`AStarPlanner.find_path`; the other mapped variants construct the class
with `wrapper_call_kwargs`, raising `TypeError` when a keyword is not
accepted; unmapped names raise `ValueError`. -/
def find_segment_path_outcome (planner_type : String) : Except String Unit :=
  if planner_type = "astar" then .ok ()
  else if planner_type ∈ ["rrt", "rrt*", "geo_rrt", "geo_rrt*"] then
    match PLANNER_MAP.lookup planner_type with
    | some params =>
        if kwargs_accepted params wrapper_call_kwargs then .ok ()
        else .error "TypeError"
    | none => .error "KeyError"
  else .error "ValueError"

/-- C1 (code-bug evaluation): the wrapper normalizes the invocation only
for `astar`; for each of the four sampling variants the constructor call
in `find_segment_path` uses a keyword the target `__init__` does not
accept (`RRT`/`GeoAwareRRT`/`GeoAwareRRTStar` take no `start`/`goal`;
`RRTStar` takes no `step_size`/`max_iter`), so the call raises
`TypeError` instead of returning a path or absent. -/
theorem C1_wrapper_dispatch_type_errors :
    find_segment_path_outcome "astar" = .ok () ∧
    find_segment_path_outcome "rrt" = .error "TypeError" ∧
    find_segment_path_outcome "rrt*" = .error "TypeError" ∧
    find_segment_path_outcome "geo_rrt" = .error "TypeError" ∧
    find_segment_path_outcome "geo_rrt*" = .error "TypeError" :=
  ⟨rfl, rfl, rfl, rfl, rfl⟩

/-! ### Tour solver (`tsp_utils.py`) — claims C4 and C9 -/

/-- One distance evaluation of `compute_cost_matrix`'s loop body: the
external metrics (scipy `euclidean`, geopy `geodesic`) are oracle
parameters; any other metric name raises
`ValueError("Unsupported metric")`. -/
def pairDist (dE dG : ℚ × ℚ → ℚ × ℚ → ℚ) (metric : String)
    (a b : ℚ × ℚ) : Except String ℚ :=
  if metric = "euclidean" then .ok (dE a b)
  else if metric = "geodesic" then .ok (dG a b)
  else .error "Unsupported metric"

/-- `matrix[i][j] = v`. -/
def mUpd (M : ℕ → ℕ → ℚ) (i j : ℕ) (v : ℚ) : ℕ → ℕ → ℚ :=
  fun a b => if a = i ∧ b = j then v else M a b

/-- The inner loop `for j in range(i)` of `compute_cost_matrix`,
assigning `matrix[i][j] = matrix[j][i] = dist` and propagating the
raise. -/
def ccmInner (dE dG : ℚ × ℚ → ℚ × ℚ → ℚ) (metric : String)
    (ws : List (ℚ × ℚ)) (i : ℕ) :
    (ℕ → ℕ → ℚ) → List ℕ → Except String (ℕ → ℕ → ℚ)
  | M, [] => .ok M
  | M, j :: js =>
    match pairDist dE dG metric ws[i]! ws[j]! with
    | .error e => .error e
    | .ok d => ccmInner dE dG metric ws i (mUpd (mUpd M i j d) j i d) js

/-- The outer loop `for i in range(n)`. -/
def ccmOuter (dE dG : ℚ × ℚ → ℚ × ℚ → ℚ) (metric : String)
    (ws : List (ℚ × ℚ)) :
    (ℕ → ℕ → ℚ) → List ℕ → Except String (ℕ → ℕ → ℚ)
  | M, [] => .ok M
  | M, i :: is =>
    match ccmInner dE dG metric ws i M (List.range i) with
    | .error e => .error e
    | .ok M2 => ccmOuter dE dG metric ws M2 is

/-- `compute_cost_matrix(waypoints, metric)`: zero-initialized symmetric
matrix filled by the double loop; unsupported metrics raise at the first
execution of the loop body. -/
def compute_cost_matrix (dE dG : ℚ × ℚ → ℚ × ℚ → ℚ) (ws : List (ℚ × ℚ))
    (metric : String) : Except String (ℕ → ℕ → ℚ) :=
  ccmOuter dE dG metric ws (fun _ _ => 0) (List.range ws.length)

/-- `Except.isOk`-style discriminator. -/
def exceptOk {ε α : Type} : Except ε α → Bool
  | .ok _ => true
  | .error _ => false

/-- C9 counterexample: with a single waypoint (or an empty list) the
inner loop body never executes, so `compute_cost_matrix` returns the
trivial matrix successfully for a metric name that is neither
"euclidean" nor "geodesic", instead of raising the unsupported-metric
error. -/
theorem C9_counterexample :
    exceptOk (compute_cost_matrix (fun _ _ => 0) (fun _ _ => 0)
      [(0, 0)] "manhattan") = true ∧
    exceptOk (compute_cost_matrix (fun _ _ => 0) (fun _ _ => 0)
      [] "manhattan") = true :=
  ⟨rfl, rfl⟩

/-- C9 amended: whenever there are at least two waypoints, any metric
name other than "euclidean" and "geodesic" makes `compute_cost_matrix`
raise the unsupported-metric error (no silently substituted default);
with fewer than two waypoints the loop body never runs and the trivial
matrix is returned unvalidated. -/
theorem C9_unsupported_metric_raises (dE dG : ℚ × ℚ → ℚ × ℚ → ℚ)
    (ws : List (ℚ × ℚ)) (metric : String)
    (h1 : metric ≠ "euclidean") (h2 : metric ≠ "geodesic")
    (hn : 2 ≤ ws.length) :
    compute_cost_matrix dE dG ws metric = .error "Unsupported metric" := by
  obtain ⟨k, hk⟩ : ∃ k, ws.length = k + 2 := ⟨ws.length - 2, by omega⟩
  unfold compute_cost_matrix
  rw [hk]
  have hr : List.range (k + 2)
      = 0 :: 1 :: ((List.range k).map Nat.succ).map Nat.succ := by
    rw [List.range_succ_eq_map, List.range_succ_eq_map, List.map_cons]
  rw [hr]
  have hpd : pairDist dE dG metric ws[1]! ws[0]! = .error "Unsupported metric" := by
    unfold pairDist
    rw [if_neg h1, if_neg h2]
  show ccmOuter dE dG metric ws (fun _ _ => 0)
      (0 :: 1 :: ((List.range k).map Nat.succ).map Nat.succ)
    = .error "Unsupported metric"
  unfold ccmOuter
  have hin0 : ccmInner dE dG metric ws 0 (fun _ _ => 0) (List.range 0)
      = .ok (fun _ _ => 0) := rfl
  rw [hin0]
  have hin1 : ccmInner dE dG metric ws 1 (fun _ _ => 0) (List.range 1)
      = .error "Unsupported metric" := by
    have hr1 : List.range 1 = [0] := rfl
    rw [hr1]
    unfold ccmInner
    rw [hpd]
  unfold ccmOuter
  rw [hin1]

/-- Witness for C9's amended statement at a concrete instance. -/
theorem C9_unsupported_metric_raises_witness :
    ("chebyshev" ≠ "euclidean") ∧ ("chebyshev" ≠ "geodesic") ∧
    2 ≤ ([((0 : ℚ), (0 : ℚ)), (1, 1)] : List (ℚ × ℚ)).length ∧
    compute_cost_matrix (fun _ _ => 0) (fun _ _ => 0)
      [((0 : ℚ), (0 : ℚ)), (1, 1)] "chebyshev" = .error "Unsupported metric" := by
  refine ⟨by decide, by decide, by decide, ?_⟩
  exact C9_unsupported_metric_raises _ _ _ _ (by decide) (by decide) (by decide)

/-! ### `solve_tsp_christofides` — claim C4 -/

/-- Modelled from the spec: the tour computation delegates to
`networkx.algorithms.approximation.christofides`, which is external to
this repository.  Its documented output shape — the contract modelled
here — is a Hamiltonian cycle given as a closed node list: the start node is
repeated at the end and every node of the complete graph (built here on
nodes `0..n-1`) appears exactly once before it. -/
def ChristofidesContract (christo : (ℕ → ℕ → ℚ) → ℕ → List ℕ) : Prop :=
  ∀ (M : ℕ → ℕ → ℚ) (n : ℕ), 2 ≤ n →
    christo M n ≠ [] ∧
    (christo M n).head? = (christo M n).getLast? ∧
    (christo M n).dropLast.Perm (List.range n)

/-- A concrete cycle builder satisfying the contract, used to evaluate
the model on concrete inputs. -/
def christofides_model (_M : ℕ → ℕ → ℚ) (n : ℕ) : List ℕ := List.range n ++ [0]

/-- `solve_tsp_christofides(cost_matrix)` with the external call
abstracted: the tour plus its cost (consecutive edges and the closing
edge `cost_matrix[tour[-1]][tour[0]]`). -/
def solve_tsp_christofides (christo : (ℕ → ℕ → ℚ) → ℕ → List ℕ)
    (M : ℕ → ℕ → ℚ) (n : ℕ) : List ℕ × ℚ :=
  let tour := christo M n
  (tour, ((tour.zip tour.tail).map fun ab => M ab.1 ab.2).sum
    + M (tour.getLastD 0) (tour.headD 0))

theorem christofides_model_contract :
    ChristofidesContract christofides_model := by
  intro M n hn
  obtain ⟨m, rfl⟩ : ∃ m, n = m + 1 := ⟨n - 1, by omega⟩
  refine ⟨by simp [christofides_model], ?_, ?_⟩
  · rw [christofides_model, List.getLast?_concat, List.range_succ_eq_map,
      List.cons_append, List.head?_cons]
  · rw [christofides_model, List.dropLast_concat]

/-- C4 counterexample: with three waypoints the solver's tour is the
closed list `[0, 1, 2, 0]` — its length is 4, not 3, refuting the
invariant `len(tour) == len(waypoints)`. -/
theorem C4_counterexample :
    (solve_tsp_christofides christofides_model (fun _ _ => 1) 3).1 = [0, 1, 2, 0] ∧
    (solve_tsp_christofides christofides_model (fun _ _ => 1) 3).1.length = 4 ∧
    ¬ (solve_tsp_christofides christofides_model (fun _ _ => 1) 3).1.length = 3 :=
  ⟨rfl, rfl, by decide⟩

/-- C4 amended: the tour returned by `solve_tsp_christofides` visits
each waypoint index exactly once and returns to the starting index, as a
closed list whose first and last entries coincide; consequently its
length is `len(waypoints) + 1`, not `len(waypoints)`. -/
theorem C4_tour_is_closed_cycle (christo : (ℕ → ℕ → ℚ) → ℕ → List ℕ)
    (hc : ChristofidesContract christo) (M : ℕ → ℕ → ℚ) (n : ℕ)
    (hn : 2 ≤ n) :
    (solve_tsp_christofides christo M n).1.length = n + 1 ∧
    (solve_tsp_christofides christo M n).1.head?
      = (solve_tsp_christofides christo M n).1.getLast? ∧
    ∀ i < n, (solve_tsp_christofides christo M n).1.dropLast.count i = 1 := by
  obtain ⟨hne, hhl, hperm⟩ := hc M n hn
  have htour : (solve_tsp_christofides christo M n).1 = christo M n := rfl
  rw [htour]
  refine ⟨?_, hhl, ?_⟩
  · have hlen : (christo M n).dropLast.length = n := by
      rw [hperm.length_eq, List.length_range]
    have hpos : 0 < (christo M n).length := List.length_pos.mpr hne
    rw [List.length_dropLast] at hlen
    omega
  · intro i hi
    rw [hperm.count_eq]
    exact List.count_eq_one_of_mem (List.nodup_range n) (List.mem_range.mpr hi)

/-- Witness for C4's amended statement: the model contract instance at a
concrete three-point matrix. -/
theorem C4_tour_is_closed_cycle_witness :
    ChristofidesContract christofides_model ∧ 2 ≤ 3 ∧
    ((solve_tsp_christofides christofides_model (fun _ _ => 1) 3).1.length = 3 + 1 ∧
      (solve_tsp_christofides christofides_model (fun _ _ => 1) 3).1.head?
        = (solve_tsp_christofides christofides_model (fun _ _ => 1) 3).1.getLast? ∧
      ∀ i < 3, (solve_tsp_christofides christofides_model
        (fun _ _ => 1) 3).1.dropLast.count i = 1) :=
  ⟨christofides_model_contract, by decide,
    C4_tour_is_closed_cycle christofides_model christofides_model_contract
      (fun _ _ => 1) 3 (by decide)⟩

/-! ### Trajectory synthesizer (`simulation_controller.py`) — C6, C7, C8

Latitude/longitude floats are modelled as rationals.  The pyproj/geopy
geodesy routines (`geod.inv` forward azimuth, `geod.fwd`, the arrival
distance test) and the elevation sampler `dem_func` are external calls,
modelled as oracle parameters; `pyproj`'s `geod.inv` returns its forward
azimuth in the interval (−180°, 180°]. -/

/-- The mutable drone state threaded through `run_simulation`. -/
structure SimSt where
  lat : ℚ
  lon : ℚ
  alt : ℚ
  heading : ℚ
deriving DecidableEq

/-- One emitted trace point (`GPSPoint` without the constant
`agl=None`). -/
structure SimPt where
  ts : ℚ
  lat : ℚ
  lon : ℚ
  alt : ℚ
  heading : ℚ
deriving DecidableEq

/-- Python float modulo (non-negative for a positive modulus). -/
def ratMod (a b : ℚ) : ℚ := a - b * ⌊a / b⌋

/-- `SimulationController.compute_heading`: the normalized azimuth
`(azimuth + 360) % 360`. -/
def compute_heading (geodInvAz : ℚ → ℚ → ℚ → ℚ → ℚ)
    (lat1 lon1 lat2 lon2 : ℚ) : ℚ :=
  ratMod (geodInvAz lon1 lat1 lon2 lat2 + 360) 360

/-- `SimulationController.step_towards`: one geodesic step toward the
target; note that the state's `heading` is assigned the raw azimuth
returned by `geod.inv`, not the `compute_heading` normalization. -/
def step_towards (geodInvAz : ℚ → ℚ → ℚ → ℚ → ℚ)
    (geodFwd : ℚ → ℚ → ℚ → ℚ → ℚ × ℚ) (dem : ℚ → ℚ → ℚ)
    (speed interval : ℚ) (st : SimSt) (target : ℚ × ℚ) : SimSt :=
  let az := geodInvAz st.lon st.lat target.2 target.1
  let moved := geodFwd st.lon st.lat az (speed * (interval / 1000))
  { lat := moved.2, lon := moved.1, alt := dem moved.2 moved.1, heading := az }

/-- The `while not has_arrived` walk toward one target, fuel-indexed
(the Python loop carries no bound); each iteration appends the stepped
state to the trace. -/
def walk (stepF : SimSt → ℚ × ℚ → SimSt) (arrived : SimSt → ℚ × ℚ → Bool) :
    ℕ → SimSt → ℚ × ℚ → SimSt × List SimSt
  | 0, s, _ => (s, [])
  | fuel + 1, s, t =>
    if arrived s t then (s, [])
    else
      let s1 := stepF s t
      let r := walk stepF arrived fuel s1 t
      (r.1, s1 :: r.2)

/-- The `for target in segment_latlon` loop of `run_simulation`. -/
def walkTargets (stepF : SimSt → ℚ × ℚ → SimSt)
    (arrived : SimSt → ℚ × ℚ → Bool) (fuel : ℕ) :
    SimSt → List (ℚ × ℚ) → SimSt × List SimSt
  | s, [] => (s, [])
  | s, t :: ts =>
    let r1 := walk stepF arrived fuel s t
    let r2 := walkTargets stepF arrived fuel r1.1 ts
    (r2.1, r1.2 ++ r2.2)

/-- The per-segment loop of `run_simulation`: plan each consecutive
waypoint pair with `find_segment_path`; a falsy result (`None` or an
empty path) is logged and skipped — synthesis continues with the next
pair. -/
def runPairs (planner : Pos → Pos → Option (List Pos))
    (toLatLon : Pos → ℚ × ℚ) (stepF : SimSt → ℚ × ℚ → SimSt)
    (arrived : SimSt → ℚ × ℚ → Bool) (fuel : ℕ) :
    SimSt → List (Pos × Pos) → SimSt × List SimSt
  | s, [] => (s, [])
  | s, ab :: rest =>
    match planner ab.1 ab.2 with
    | none => runPairs planner toLatLon stepF arrived fuel s rest
    | some seg =>
      if seg.isEmpty then runPairs planner toLatLon stepF arrived fuel s rest
      else
        let r1 := walkTargets stepF arrived fuel s (seg.map toLatLon)
        let r2 := runPairs planner toLatLon stepF arrived fuel r1.1 rest
        (r2.1, r1.2 ++ r2.2)

/-- Timestamping of the accumulated GPS points: each appended point
reads the wall clock (`datetime.utcnow()`), modelled as the stream
`clock` indexed by append order. -/
def stampTrace (clock : ℕ → ℚ) (states : List SimSt) : List SimPt :=
  states.enum.map fun is =>
    ⟨clock is.1, is.2.lat, is.2.lon, is.2.alt, is.2.heading⟩

/-- `SimulationController.run_simulation`: raises `ValueError` with
fewer than two waypoint cells, otherwise runs the segment loop from the
start state and returns the time-stamped trace. -/
def run_simulation (planner : Pos → Pos → Option (List Pos))
    (toLatLon : Pos → ℚ × ℚ) (stepF : SimSt → ℚ × ℚ → SimSt)
    (arrived : SimSt → ℚ × ℚ → Bool) (fuel : ℕ)
    (wrc : List Pos) (s0 : SimSt) (clock : ℕ → ℚ) : Except String (List SimPt) :=
  if wrc.length < 2 then .error "Not enough waypoints to simulate path."
  else .ok (stampTrace clock
    (runPairs planner toLatLon stepF arrived fuel s0 (wrc.zip wrc.tail)).2)

/-! ### Claim C7 -/

/-- C7: when the planner returns an absent path for a consecutive
waypoint pair, that segment contributes no trajectory points and
synthesis continues with the next pair; and with at least two waypoints
`run_simulation` always returns a trace — a per-segment planning failure
never raises out of it. -/
theorem C7_failed_segment_skipped (planner : Pos → Pos → Option (List Pos))
    (toLatLon : Pos → ℚ × ℚ) (stepF : SimSt → ℚ × ℚ → SimSt)
    (arrived : SimSt → ℚ × ℚ → Bool) (fuel : ℕ) :
    (∀ (s : SimSt) (a b : Pos) (rest : List (Pos × Pos)), planner a b = none →
      runPairs planner toLatLon stepF arrived fuel s ((a, b) :: rest)
        = runPairs planner toLatLon stepF arrived fuel s rest) ∧
    (∀ (wrc : List Pos) (s0 : SimSt) (clock : ℕ → ℚ), 2 ≤ wrc.length →
      run_simulation planner toLatLon stepF arrived fuel wrc s0 clock
        = .ok (stampTrace clock
            (runPairs planner toLatLon stepF arrived fuel s0
              (wrc.zip wrc.tail)).2)) := by
  constructor
  · intro s a b rest hn
    conv_lhs => rw [runPairs]
    rw [hn]
  · intro wrc s0 clock hlen
    unfold run_simulation
    rw [if_neg (by omega)]

/-- Witness for C7 at a concrete instance: the first pair fails to plan
and is skipped, the second pair is synthesized, and the run returns
`.ok`. -/
theorem C7_failed_segment_skipped_witness :
    ((fun a _ : Pos => if a = ((0 : ℤ), (0 : ℤ)) then none else some [a])
        ((0 : ℤ), (0 : ℤ)) (1, 1) = none ∧
      runPairs (fun a _ : Pos => if a = ((0 : ℤ), (0 : ℤ)) then none else some [a])
        (fun rc => ((rc.1 : ℚ), (rc.2 : ℚ))) (fun s _ => s) (fun _ _ => true) 1
        ⟨0, 0, 0, 0⟩ [(((0 : ℤ), (0 : ℤ)), (1, 1)), ((1, 1), (2, 2))]
      = runPairs (fun a _ : Pos => if a = ((0 : ℤ), (0 : ℤ)) then none else some [a])
        (fun rc => ((rc.1 : ℚ), (rc.2 : ℚ))) (fun s _ => s) (fun _ _ => true) 1
        ⟨0, 0, 0, 0⟩ [((1, 1), (2, 2))]) ∧
    (2 ≤ ([((0 : ℤ), (0 : ℤ)), (1, 1), (2, 2)] : List Pos).length ∧
      run_simulation (fun a _ : Pos => if a = ((0 : ℤ), (0 : ℤ)) then none else some [a])
        (fun rc => ((rc.1 : ℚ), (rc.2 : ℚ))) (fun s _ => s) (fun _ _ => true) 1
        [((0 : ℤ), (0 : ℤ)), (1, 1), (2, 2)] ⟨0, 0, 0, 0⟩ (fun _ => 0)
      = .ok (stampTrace (fun _ => 0)
          (runPairs (fun a _ : Pos => if a = ((0 : ℤ), (0 : ℤ)) then none else some [a])
            (fun rc => ((rc.1 : ℚ), (rc.2 : ℚ))) (fun s _ => s) (fun _ _ => true) 1
            ⟨0, 0, 0, 0⟩
            (([((0 : ℤ), (0 : ℤ)), (1, 1), (2, 2)] : List Pos).zip
              ([((0 : ℤ), (0 : ℤ)), (1, 1), (2, 2)] : List Pos).tail)).2)) := by
  refine ⟨⟨rfl, ?_⟩, by decide, ?_⟩
  · exact (C7_failed_segment_skipped _ _ _ _ _).1 _ _ _ _ rfl
  · exact (C7_failed_segment_skipped _ _ _ _ _).2 _ _ _ (by decide)

/-! ### Claim C6 -/

/-- C6 (code-bug evaluation): the trace points emitted by
`run_simulation` carry the heading assigned by `step_towards` — the raw
`geod.inv` forward azimuth in (−180°, 180°].  For a due-west step
(azimuth −90°) the emitted trace point has heading −90, which is not in
[0, 360); the normalization `(azimuth + 360) % 360` exists in
`compute_heading` (which would give 270) but is not applied to the
emitted points. -/
theorem C6_emitted_heading_not_normalized :
    run_simulation (fun a b => some [a, b])
      (fun rc => ((rc.1 : ℚ), (rc.2 : ℚ)))
      (step_towards (fun _ _ _ _ => -90) (fun _ _ _ _ => (1, 0))
        (fun _ _ => 0) 5 1000)
      (fun s t => decide (s.lat = t.1 ∧ s.lon = t.2)) 2
      [(0, 0), (0, 1)] ⟨0, 0, 0, 0⟩ (fun _ => 0)
      = .ok [⟨0, 0, 1, 0, -90⟩] ∧
    ¬ (0 ≤ (-90 : ℚ)) ∧
    compute_heading (fun _ _ _ _ => -90) 0 0 0 1 = 270 := by
  refine ⟨rfl, by decide, ?_⟩
  unfold compute_heading ratMod
  have h1 : ((-90 : ℚ) + 360) = 270 := by norm_num
  rw [h1]
  have h2 : ⌊(270 : ℚ) / 360⌋ = 0 := by
    rw [Int.floor_eq_zero_iff, Set.mem_Ico]
    constructor <;> norm_num
  rw [h2]
  norm_num

/-! ### Claim C8 -/

/-- C8 counterexample: two invocations of `run_simulation` with
identical inputs (waypoints, planned path, geodesy oracles; no random
source is consulted at all on this code path) made at different
wall-clock instants return traces that differ in their timestamps,
because `ts` is read from `datetime.utcnow()` rather than derived from
the inputs or a seed. -/
theorem C8_counterexample :
    run_simulation (fun a b => some [a, b])
      (fun rc => ((rc.1 : ℚ), (rc.2 : ℚ)))
      (step_towards (fun _ _ _ _ => -90) (fun _ _ _ _ => (1, 0))
        (fun _ _ => 0) 5 1000)
      (fun s t => decide (s.lat = t.1 ∧ s.lon = t.2)) 2
      [(0, 0), (0, 1)] ⟨0, 0, 0, 0⟩ (fun _ => 0)
    ≠ run_simulation (fun a b => some [a, b])
      (fun rc => ((rc.1 : ℚ), (rc.2 : ℚ)))
      (step_towards (fun _ _ _ _ => -90) (fun _ _ _ _ => (1, 0))
        (fun _ _ => 0) 5 1000)
      (fun s t => decide (s.lat = t.1 ∧ s.lon = t.2)) 2
      [(0, 0), (0, 1)] ⟨0, 0, 0, 0⟩ (fun _ => 7) := by
  intro h
  have hA : run_simulation (fun a b => some [a, b])
      (fun rc => ((rc.1 : ℚ), (rc.2 : ℚ)))
      (step_towards (fun _ _ _ _ => -90) (fun _ _ _ _ => (1, 0))
        (fun _ _ => 0) 5 1000)
      (fun s t => decide (s.lat = t.1 ∧ s.lon = t.2)) 2
      [(0, 0), (0, 1)] ⟨0, 0, 0, 0⟩ (fun _ => 0)
      = .ok [⟨0, 0, 1, 0, -90⟩] := rfl
  have hB : run_simulation (fun a b => some [a, b])
      (fun rc => ((rc.1 : ℚ), (rc.2 : ℚ)))
      (step_towards (fun _ _ _ _ => -90) (fun _ _ _ _ => (1, 0))
        (fun _ _ => 0) 5 1000)
      (fun s t => decide (s.lat = t.1 ∧ s.lon = t.2)) 2
      [(0, 0), (0, 1)] ⟨0, 0, 0, 0⟩ (fun _ => 7)
      = .ok [⟨7, 0, 1, 0, -90⟩] := rfl
  rw [hA, hB] at h
  have h2 : ([⟨0, 0, 1, 0, -90⟩] : List SimPt) = [⟨7, 0, 1, 0, -90⟩] := by
    injection h
  exact absurd h2 (by decide)

/-- The timestamp-erased view of a trace point. -/
def eraseTs (p : SimPt) : ℚ × ℚ × ℚ × ℚ := (p.lat, p.lon, p.alt, p.heading)

/-- C8 amended: for identical inputs the synthesized positions,
altitudes and headings coincide — the trace is deterministic up to its
timestamps, which are wall-clock readings and differ between
invocations made at different times. -/
theorem C8_trace_deterministic_modulo_timestamps
    (planner : Pos → Pos → Option (List Pos)) (toLatLon : Pos → ℚ × ℚ)
    (stepF : SimSt → ℚ × ℚ → SimSt) (arrived : SimSt → ℚ × ℚ → Bool)
    (fuel : ℕ) (wrc : List Pos) (s0 : SimSt) (c₁ c₂ : ℕ → ℚ) :
    (run_simulation planner toLatLon stepF arrived fuel wrc s0 c₁).map
        (List.map eraseTs)
      = (run_simulation planner toLatLon stepF arrived fuel wrc s0 c₂).map
        (List.map eraseTs) := by
  unfold run_simulation
  by_cases hl : wrc.length < 2
  · rw [if_pos hl, if_pos hl]
  · rw [if_neg hl, if_neg hl]
    show Except.ok _ = Except.ok _
    unfold stampTrace
    rw [List.map_map, List.map_map]
    rfl

end DroneSim
